import Mathlib

/-!
Verification of the pylisticles markdown persistence layer
(`pylisticles/data/persistence.py` and `pylisticles/models/collection.py`).

Python strings are modelled as `List Char` (named `Str`), Python `None`-able or
fallible operations as `Option`/`Except`, the filesystem as an explicit record
of directories and files, and exceptions as an explicit error type whose
constructors are the exception classes that the code can raise.  Python floats
are modelled as exact rationals; `str()` on a float is modelled as its plain
decimal rendering (Python may instead use scientific notation for very large or
small magnitudes, so every theorem whose truth depends on a float rendering
carries an explicit re-parse hypothesis).  `datetime` values are modelled by
their ISO strings, on which `isoformat`/`fromisoformat` are mutual identities.
`uuid4` is modelled as a draw from an injective supply of fresh identifiers,
matching its contract, unique and never reused.
-/

set_option maxRecDepth 4000

namespace Pylisticles

/-- Python strings are modelled as lists of characters. -/
abbrev Str := List Char

/-- Whitespace characters recognised by Python `str.strip()` (ASCII subset). -/
def isWS (c : Char) : Bool :=
  c == ' ' || c == '\t' || c == '\n' || c == '\r'

/-- Python `str.strip()`. -/
def trim (s : Str) : Str :=
  ((s.dropWhile isWS).reverse.dropWhile isWS).reverse

/-- Python `str.startswith(p)` (pattern first). -/
def startsW : Str → Str → Bool
  | [], _ => true
  | _ :: _, [] => false
  | p :: ps, c :: cs => p == c && startsW ps cs

/-- Python `str.endswith(p)` (pattern first). -/
def endsW (p s : Str) : Bool :=
  startsW p.reverse s.reverse

/-- Python `str.split(sep)` for a one-character separator. -/
def splitOnChar (sep : Char) : Str → List Str
  | [] => [[]]
  | c :: rest =>
    let r := splitOnChar sep rest
    if c == sep then [] :: r
    else
      match r with
      | g :: gs => (c :: g) :: gs
      | [] => [[c]]

/-- Python `sep.join(pieces)`. -/
def joinWith (sep : Str) : List Str → Str
  | [] => []
  | [l] => l
  | l :: l2 :: ls => l ++ sep ++ joinWith sep (l2 :: ls)

/-- Python `s.split(pat, 1)`: split on the first occurrence of `pat`,
returning `none` when `pat` does not occur. -/
def findSplit (pat : Str) : Str → Option (Str × Str)
  | [] => none
  | c :: rest =>
    if startsW pat (c :: rest) then some ([], (c :: rest).drop pat.length)
    else
      match findSplit pat rest with
      | some (pre, post) => some (c :: pre, post)
      | none => none

/-- Python `value.replace("|", "\\|")`. -/
def escapePipes (s : Str) : Str :=
  (s.map fun c => if c == '|' then ['\\', '|'] else [c]).flatten

/-- Python `value.replace("\\|", "|")`: left-to-right non-overlapping
replacement of the two-character pattern backslash-pipe by a pipe. -/
def unescapePipes : Str → Str
  | [] => []
  | [c] => [c]
  | c1 :: c2 :: rest =>
    if c1 == '\\' && c2 == '|' then '|' :: unescapePipes rest
    else c1 :: unescapePipes (c2 :: rest)

/-- The single-quote character, written by code point to keep source plain. -/
def sq : Char := Char.ofNat 39

/-- The newline-dash-dash-dash-newline delimiter pattern. -/
def delimPat : Str := "\n---\n".data

/-! ### Numbers: models of Python `str(int)`, `int()`, `str(float)`, `float()` -/

/-- Decimal digit to character. -/
def digitToChar (d : Nat) : Char := Char.ofNat (48 + d)

/-- Character to decimal digit value. -/
def digitVal (c : Char) : Nat := c.toNat - 48

/-- Little-endian digit characters of `n`; the first argument is fuel
(`n` itself is always enough). -/
def natDigitsGo : Nat → Nat → Str
  | 0, _ => []
  | _ + 1, 0 => []
  | f + 1, n + 1 => digitToChar ((n + 1) % 10) :: natDigitsGo f ((n + 1) / 10)

/-- Python `str(n)` for a natural number. -/
def natToStr (n : Nat) : Str :=
  if n == 0 then ['0'] else (natDigitsGo n n).reverse

/-- Python `str(n)` for an integer. -/
def intToStr : Int → Str
  | .ofNat n => natToStr n
  | .negSucc n => '-' :: natToStr (n + 1)

/-- Digit run with Python underscore rule: an underscore must sit between
two digits; accumulates the value. -/
def parseDigitsGo (acc : Nat) : Str → Option Nat
  | [] => some acc
  | c :: rest =>
    if c == '_' then
      match rest with
      | c2 :: rest2 =>
        if c2.isDigit then parseDigitsGo (acc * 10 + digitVal c2) rest2 else none
      | [] => none
    else if c.isDigit then parseDigitsGo (acc * 10 + digitVal c) rest
    else none

/-- Nonempty unsigned digit run. -/
def parseUnsigned : Str → Option Nat
  | c :: rest => if c.isDigit then parseDigitsGo (digitVal c) rest else none
  | [] => none

/-- Python `int(s)`: surrounding whitespace, optional sign, digits. -/
def pyParseInt (s : Str) : Option Int :=
  match trim s with
  | c :: rest =>
    if c == '+' then (parseUnsigned rest).map Int.ofNat
    else if c == '-' then (parseUnsigned rest).map (fun n => -(n : Int))
    else (parseUnsigned (c :: rest)).map Int.ofNat
  | [] => none

/-- Scan a digit part after its first digit: value, digit count, rest.
Fails on a misplaced underscore, as Python does. -/
def scanDigitsGo (v k : Nat) : Str → Option (Nat × Nat × Str)
  | [] => some (v, k, [])
  | '_' :: rest =>
    match rest with
    | c :: rest2 =>
      if c.isDigit then scanDigitsGo (v * 10 + digitVal c) (k + 1) rest2 else none
    | [] => none
  | c :: rest =>
    if c.isDigit then scanDigitsGo (v * 10 + digitVal c) (k + 1) rest
    else some (v, k, c :: rest)

/-- Scan a possibly-empty digit part: value, digit count, rest. -/
def scanDigits : Str → Option (Nat × Nat × Str)
  | c :: rest =>
    if c.isDigit then scanDigitsGo (digitVal c) 1 rest else some (0, 0, c :: rest)
  | [] => some (0, 0, [])

/-- Exponent part of a float literal: `e`/`E`, optional sign, digits. -/
def scanExp : Str → Option (Int × Str)
  | c :: rest =>
    if c == 'e' || c == 'E' then
      match rest with
      | '+' :: rest2 => (scanDigits rest2).bind fun t =>
          if t.2.1 == 0 then none else some ((t.1 : Int), t.2.2)
      | '-' :: rest2 => (scanDigits rest2).bind fun t =>
          if t.2.1 == 0 then none else some (-(t.1 : Int), t.2.2)
      | rest2 => (scanDigits rest2).bind fun t =>
          if t.2.1 == 0 then none else some ((t.1 : Int), t.2.2)
    else none
  | [] => none

/-- Mantissa and exponent of an unsigned float literal; the exact rational
value is built with `mkRat` from the digit parts. -/
def pyParseFloatCore (s : Str) : Option ℚ := do
  let (iv, ik, r1) ← scanDigits s
  let (fv, fk, r2) ←
    match r1 with
    | '.' :: rest => scanDigits rest
    | _ => some (0, 0, r1)
  if ik + fk == 0 then none
  else
    let (ex, r3) ←
      match r2 with
      | [] => some ((0 : Int), ([] : Str))
      | c :: rest =>
        match scanExp (c :: rest) with
        | some p => some p
        | none => none
    if r3.isEmpty then
      let mant : Nat := iv * 10 ^ fk + fv
      some (match ex with
        | .ofNat e => mkRat (mant * 10 ^ e) (10 ^ fk)
        | .negSucc e => mkRat mant (10 ^ fk * 10 ^ (e + 1)))
    else none

/-- Python `float(s)` on the grammar reachable from the decoder
(`inf`/`nan` are unreachable there because the decoder only calls `float`
on text containing a dot). -/
def pyParseFloat (s : Str) : Option ℚ :=
  match trim s with
  | c :: rest =>
    if c == '+' then pyParseFloatCore rest
    else if c == '-' then (pyParseFloatCore rest).map Neg.neg
    else pyParseFloatCore (c :: rest)
  | [] => none

/-- Fractional decimal digits of `n / d` (with `n < d`), fuel-bounded. -/
def fracDigitsN : Nat → Nat → Nat → Str
  | 0, _, _ => []
  | f + 1, n, d =>
    if n == 0 then []
    else digitToChar (n * 10 / d) :: fracDigitsN f (n * 10 % d) d

/-- Python `str(q)` for a nonnegative float, as plain decimal. -/
def floatStrPos (q : ℚ) : Str :=
  let ip := q.num.toNat / q.den
  let ds := fracDigitsN 400 (q.num.toNat % q.den) q.den
  natToStr ip ++ '.' :: (if ds.isEmpty then ['0'] else ds)

/-- Python `str(q)` for a float value, modelled as plain decimal. -/
def floatStr (q : ℚ) : Str :=
  if q.num < 0 then '-' :: floatStrPos (-q) else floatStrPos q

/-! ### Data model (`pylisticles/models/collection.py`) -/

/-- A dynamically typed item value: one of `str`, `int`, `float`, `bool`
(spec section 9 recommends exactly this tagged variant). -/
inductive Value where
  | vStr (s : Str)
  | vInt (n : Int)
  | vFloat (q : ℚ)
  | vBool (b : Bool)
deriving DecidableEq

/-- `Field` dataclass: a column definition. -/
structure Field where
  name : Str
  type : Str
  required : Bool
  options : List Str
deriving DecidableEq

/-- `Item` dataclass: `id` (from `uuid4`) and `data` (an insertion-ordered
dict, modelled as an association list).  The creation timestamps are drawn
from the clock and never persisted; they are omitted from the model (they
could only make two distinctly created items even less equal). -/
structure Item where
  id : Str
  data : List (Str × Value)
deriving DecidableEq

/-- `Collection` dataclass; datetimes modelled by their ISO strings. -/
structure Collection where
  name : Str
  type : Str
  fields : List Field
  items : List Item
  created_at : Str
  updated_at : Str
deriving DecidableEq

/-- `Collection.get_field_names`. -/
def getFieldNames (c : Collection) : List Str :=
  c.fields.map (·.name)

/-! ### Dict operations (Python `dict` modelled as ordered association list) -/

/-- First-match lookup (a Python dict holds each key once). -/
def dlookup {β : Type} (k : Str) : List (Str × β) → Option β
  | [] => none
  | (k2, v) :: rest => if k2 == k then some v else dlookup k rest

/-- Python `d[k] = v`: update in place when the key exists, else append. -/
def dictSet {β : Type} (d : List (Str × β)) (k : Str) (v : β) : List (Str × β) :=
  match d with
  | [] => [(k, v)]
  | (k2, v2) :: rest => if k2 == k then (k2, v) :: rest else (k2, v2) :: dictSet rest k v

/-- Python dict equality: same keys, same values, order-insensitive. -/
def pyDictEq (d1 d2 : List (Str × Value)) : Bool :=
  d1.all (fun p => dlookup p.1 d2 == some p.2) &&
  d2.all (fun p => dlookup p.1 d1 == some p.2)

/-- `{field.name: field.type for field in fields}.get(k, dflt)`: in a dict
comprehension the last duplicate wins, so look the reversed list up. -/
def pyDictGetS (m : List (Str × Str)) (k : Str) (dflt : Str) : Str :=
  match dlookup k m.reverse with
  | some t => t
  | none => dflt

/-! ### Exceptions and filesystem -/

/-- Exception classes the persistence layer can raise: `PersistenceError`
is the only class defined by the code; anything else (OS errors, parse
errors from libraries) is `otherError`. -/
inductive PyErr where
  | persistenceError (msg : Str)
  | otherError (msg : Str)
deriving DecidableEq

/-- The exception class of an error, as a caller could test with
`isinstance`. -/
def PyErr.isPersistence : PyErr → Bool
  | .persistenceError _ => true
  | .otherError _ => false

/-- Filesystem state: a set of existing directories and a map from file
paths to contents. -/
structure FS where
  dirs : List Str
  files : List (Str × Str)
deriving DecidableEq

/-- Read a file. -/
def fsRead (files : List (Str × Str)) (p : Str) : Option Str :=
  dlookup p files

/-- The quoted collection name as it appears in error messages. -/
def qname (n : Str) : Str := sq :: n ++ [sq]

/-- Message of the error raised when a collection file is absent. -/
def notFoundMsg (n : Str) : Str :=
  "Collection ".data ++ qname n ++ " not found".data

/-- Message for a file that does not start with the frontmatter delimiter. -/
def missingFrontmatterMsg (n : Str) : Str :=
  "Invalid file format for ".data ++ qname n ++ ": missing YAML frontmatter".data

/-- Message for a file whose frontmatter never closes. -/
def malformedFrontmatterMsg (n : Str) : Str :=
  "Invalid file format for ".data ++ qname n ++ ": malformed frontmatter".data

/-- Catch-all wrapper message of `load_collection`. -/
def failLoadMsg (n e : Str) : Str :=
  "Failed to load collection ".data ++ qname n ++ ": ".data ++ e

/-- Catch-all wrapper message of `save_collection`. -/
def failSaveMsg (n e : Str) : Str :=
  "Failed to save collection ".data ++ qname n ++ ": ".data ++ e

/-! ### Path resolver -/

/-- The characters `_sanitize_filename` replaces. -/
def unsafeChars : List Char := ['<', '>', ':', '\"', '/', '\\', '|', '?', '*']

/-- Strip leading and trailing `.` and space (Python `strip(". ")`). -/
def stripDotSpace (s : Str) : Str :=
  let f := fun c => c == '.' || c == ' '
  ((s.dropWhile f).reverse.dropWhile f).reverse

/-- `CollectionStorage._sanitize_filename`. -/
def sanitizeFilename (name : Str) : Str :=
  let safe := name.map fun c => if unsafeChars.contains c then '_' else c
  let safe := stripDotSpace safe
  if safe.isEmpty then "unnamed_collection".data else safe

/-- `CollectionStorage._get_file_path`. -/
def getFilePath (dataDir : Str) (collectionName : Str) : Str :=
  dataDir ++ '/' :: sanitizeFilename collectionName ++ ".md".data

/-! ### Frontmatter codec.

The code delegates to `yaml.dump(data, default_flow_style=False,
sort_keys=False)` and `yaml.safe_load`; these library calls are modelled on
exactly the document shape the code emits: a `collection` mapping of four
string scalars, and a `fields` block sequence of mappings with `name`,
`type`, `required`, `options` keys.  A scalar is written plain when it is a
simple alphanumeric word or phrase, single-quoted otherwise; the timestamps
(ISO strings, which a YAML resolver would read as timestamps) are always
quoted. -/

/-- Lower-case an ASCII letter. -/
def toLowerA (c : Char) : Char :=
  if 'A' ≤ c && c ≤ 'Z' then Char.ofNat (c.toNat + 32) else c

/-- Words the YAML resolver would read as booleans or null. -/
def boolWords : List Str :=
  ["true".data, "false".data, "yes".data, "no".data, "on".data, "off".data,
   "null".data]

/-- Scalars the modelled dumper writes without quotes. -/
def yamlPlainOk (s : Str) : Bool :=
  !s.isEmpty &&
  s.all (fun c => c.isAlpha || c.isDigit || c == ' ' || c == '_') &&
  (match s with | c :: _ => c.isAlpha | [] => false) &&
  !(s.getLast? == some ' ') &&
  !(boolWords.contains (s.map toLowerA))

/-- Render a scalar, quoting it when it is not plain. -/
def plainOut (s : Str) : Str :=
  if yamlPlainOk s then s else sq :: s ++ [sq]

/-- Render a scalar always quoted (used for the ISO timestamps). -/
def quoteOut (s : Str) : Str := sq :: s ++ [sq]

/-- The lines `yaml.dump` emits for one field entry. -/
def fieldLines (f : Field) : List Str :=
  ["- name: ".data ++ plainOut f.name,
   "  type: ".data ++ plainOut f.type,
   "  required: ".data ++ (if f.required then "true".data else "false".data)] ++
  (if f.options.isEmpty then ["  options: []".data]
   else "  options:".data :: f.options.map fun o => "  - ".data ++ plainOut o)

/-- The lines of the YAML document `_collection_to_yaml_data` + `yaml.dump`
produce. -/
def yamlDumpLines (c : Collection) : List Str :=
  ["collection:".data,
   "  name: ".data ++ plainOut c.name,
   "  type: ".data ++ plainOut c.type,
   "  created_at: ".data ++ quoteOut c.created_at,
   "  updated_at: ".data ++ quoteOut c.updated_at] ++
  (if c.fields.isEmpty then ["fields: []".data]
   else "fields:".data :: (c.fields.map fieldLines).flatten)

/-- `yaml.dump` output: the lines, each terminated by a newline. -/
def yamlDump (c : Collection) : Str :=
  joinWith "\n".data (yamlDumpLines c) ++ "\n".data

/-- Result of parsing the frontmatter document. -/
structure YamlDoc where
  cname : Str
  ctype : Str
  created_at : Str
  updated_at : Str
  fields : List Field
deriving DecidableEq

/-- Remove single quotes from a quoted scalar. -/
def parseScalar (s : Str) : Str :=
  if s.length ≥ 2 && s.head? == some sq && s.getLast? == some sq then
    (s.drop 1).dropLast
  else s

/-- Drop a literal leading text, or fail. -/
def matchDrop (p s : Str) : Option Str :=
  if startsW p s then some (s.drop p.length) else none

/-- Parse the `collection:` block; returns the metadata and the remaining
lines. -/
def parseMeta : List Str → Option ((Str × Str × Str × Str) × List Str)
  | l0 :: l1 :: l2 :: l3 :: l4 :: rest =>
    if l0 == "collection:".data then
      (matchDrop "  name: ".data l1).bind fun n =>
      (matchDrop "  type: ".data l2).bind fun t =>
      (matchDrop "  created_at: ".data l3).bind fun ca =>
      (matchDrop "  updated_at: ".data l4).bind fun ua =>
      some ((parseScalar n, parseScalar t, parseScalar ca, parseScalar ua), rest)
    else none
  | _ => none

/-- Parse a `required:` line. -/
def parseReq (l : Str) : Option Bool :=
  match matchDrop "  required: ".data l with
  | some r => if r == "true".data then some true
              else if r == "false".data then some false else none
  | none => none

/-- Collect the `  - item` lines of a block sequence of options. -/
def parseOptItems : List Str → List Str × List Str
  | [] => ([], [])
  | l :: rest =>
    if startsW "  - ".data l then
      (parseScalar (l.drop 4) :: (parseOptItems rest).1, (parseOptItems rest).2)
    else ([], l :: rest)

/-- Parse the field entries (fuel-bounded; the line count is enough fuel). -/
def parseFieldsGo : Nat → List Str → Option (List Field)
  | _, [] => some []
  | 0, _ :: _ => none
  | fuel + 1, l1 :: l2 :: l3 :: l4 :: rest =>
    (matchDrop "- name: ".data l1).bind fun n =>
    (matchDrop "  type: ".data l2).bind fun t =>
    (parseReq l3).bind fun r =>
    if l4 == "  options: []".data then
      (parseFieldsGo fuel rest).map fun fs =>
        ⟨parseScalar n, parseScalar t, r, []⟩ :: fs
    else if l4 == "  options:".data then
      (parseFieldsGo fuel (parseOptItems rest).2).map fun fs =>
        ⟨parseScalar n, parseScalar t, r, (parseOptItems rest).1⟩ :: fs
    else none
  | _ + 1, _ => none

/-- `yaml.safe_load` on the emitted document shape. -/
def yamlParse (txt : Str) : Option YamlDoc :=
  (parseMeta (splitOnChar '\n' txt)).bind fun pr =>
    if pr.2 == ["fields: []".data] then
      some ⟨pr.1.1, pr.1.2.1, pr.1.2.2.1, pr.1.2.2.2, []⟩
    else
      match pr.2 with
      | fl :: fls =>
        if fl == "fields:".data then
          (parseFieldsGo fls.length fls).map fun fs =>
            ⟨pr.1.1, pr.1.2.1, pr.1.2.2.1, pr.1.2.2.2, fs⟩
        else none
      | [] => none

/-! ### Table codec (`_items_to_markdown_table` / `_markdown_table_to_items`) -/

/-- Cell rendering by runtime value class (the `isinstance` chain; `bool`
is tested before `int`, matching the source order). -/
def cellOf : Value → Str
  | .vBool b => if b then "✓".data else "✗".data
  | .vInt n => intToStr n
  | .vFloat q => floatStr q
  | .vStr s => escapePipes s

/-- `item.data.get(field_name, "")` rendered as a cell: the default is the
empty string, which the string branch escapes to itself. -/
def cellOfData (d : List (Str × Value)) (fn : Str) : Str :=
  match dlookup fn d with
  | some v => cellOf v
  | none => escapePipes []

/-- One markdown table row for an item. -/
def rowLine (fieldNames : List Str) (it : Item) : Str :=
  "| ".data ++ joinWith " | ".data (fieldNames.map (cellOfData it.data)) ++ " |".data

/-- `_items_to_markdown_table`. -/
def itemsToMarkdownTable (c : Collection) : Str :=
  if c.items.isEmpty then []
  else
    let fieldNames := getFieldNames c
    if fieldNames.isEmpty then []
    else
      let header := "| ".data ++ joinWith " | ".data fieldNames ++ " |".data
      let separator :=
        "| ".data ++ joinWith " | ".data (fieldNames.map fun _ => "---".data) ++ " |".data
      let rows := c.items.map (rowLine fieldNames)
      joinWith "\n".data (header :: separator :: rows)

/-- `line[1:-1].split("|")` with each piece stripped. -/
def innerCells (l : Str) : List Str :=
  (splitOnChar '|' ((l.drop 1).dropLast)).map trim

/-- Decode one nonempty cell by its declared field type (the body of the
`try` block; `int`/`float` failure falls back to the unescaped raw text). -/
def cellValue (fieldType : Str) (value : Str) : Value :=
  if fieldType == "boolean".data then .vBool (value == "✓".data)
  else if fieldType == "number".data then
    if value.contains '.' then
      match pyParseFloat value with
      | some q => .vFloat q
      | none => .vStr (unescapePipes value)
    else
      match pyParseInt value with
      | some n => .vInt n
      | none => .vStr (unescapePipes value)
  else .vStr (unescapePipes value)

/-- The `item_data` dict built for one row: empty cells are skipped, the
rest are converted by the declared type (default `text`). -/
def rowData (ftypes : List (Str × Str)) (pairs : List (Str × Str)) :
    List (Str × Value) :=
  pairs.foldl
    (fun acc p =>
      if p.2.isEmpty then acc
      else dictSet acc p.1 (cellValue (pyDictGetS ftypes p.1 "text".data) p.2))
    []

/-- Decode one data line: skipped (`none`) unless it starts and ends with a
pipe and its cell count matches the header. -/
def lineRowData (ftypes : List (Str × Str)) (fieldNames : List Str) (line : Str) :
    Option (List (Str × Value)) :=
  let l := trim line
  if !(startsW "|".data l && endsW "|".data l) then none
  else
    let values := innerCells l
    if values.length != fieldNames.length then none
    else some (rowData ftypes (fieldNames.zip values))

/-- `_markdown_table_to_items`, up to the per-item `uuid4` draw: the list of
`item_data` dicts in row order (rows whose dict stays empty are dropped). -/
def tableRowDatas (md : Str) (fields : List Field) :
    List (List (Str × Value)) :=
  if (trim md).isEmpty then []
  else
    let ls := splitOnChar '\n' (trim md)
    if ls.length < 3 then []
    else
      match ls with
      | headerLine :: _ :: dataLines =>
        let h := trim headerLine
        if !(startsW "|".data h && endsW "|".data h) then []
        else
          let fieldNames := innerCells h
          let ftypes := fields.map fun f => (f.name, f.type)
          (dataLines.filterMap (lineRowData ftypes fieldNames)).filter
            (fun d => !d.isEmpty)
      | _ => []

/-- The fresh-id supply modelling `uuid4`: injective, never reused. -/
def uuidStr (n : Nat) : Str := "uuid-".data ++ natToStr n

/-- Wrap the decoded row dicts into `Item`s, drawing fresh ids. -/
def assignIds : Nat → List (List (Str × Value)) → List Item
  | _, [] => []
  | s, d :: ds => ⟨uuidStr s, d⟩ :: assignIds (s + 1) ds

/-- `_markdown_table_to_items` proper: items with fresh ids, plus the
advanced supply. -/
def markdownTableToItems (md : Str) (fields : List Field) (supply : Nat) :
    List Item × Nat :=
  let ds := tableRowDatas md fields
  (assignIds supply ds, supply + ds.length)

/-! ### Collection store -/

/-- `CollectionStorage.__init__`: `Path(data_dir).mkdir(parents=True,
exist_ok=True)`.  Directory paths are strings; the ancestors of a path are
its slash-separated prefixes. -/
def ancestorsOf (dir : Str) : List Str :=
  let comps := splitOnChar '/' dir
  (List.range comps.length).map fun i => joinWith "/".data (comps.take (i + 1))

/-- Insert each element not already present, in order. -/
def addAll (ds : List Str) : List Str → List Str
  | [] => ds
  | a :: rest => addAll (if ds.contains a then ds else ds ++ [a]) rest

/-- Construct a `CollectionStorage` over `dataDir`: create the directory and
its missing ancestors. -/
def initStorage (fs : FS) (dataDir : Str) : FS :=
  { fs with dirs := addAll fs.dirs (ancestorsOf dataDir) }

/-- The full file content `save_collection` writes. -/
def saveContent (c : Collection) : Str :=
  let table := itemsToMarkdownTable c
  let base :=
    "---\n".data ++ yamlDump c ++ "---\n\n# ".data ++ c.name ++ "\n\n".data
  if table.isEmpty then base else base ++ table ++ "\n".data

/-- `save_collection`: resolve, render, write (overwriting).  Opening the
file fails when the data directory is absent; the catch-all wraps that
failure into a `PersistenceError`. -/
def saveCollection (fs : FS) (dataDir : Str) (c : Collection) : Except PyErr FS :=
  if fs.dirs.contains dataDir then
    .ok { fs with files := dictSet fs.files (getFilePath dataDir c.name) (saveContent c) }
  else
    .error (.persistenceError (failSaveMsg c.name "No such file or directory".data))

/-- Scan for the first body line that starts with a pipe and has another
pipe after position 0; returns the lines from it on. -/
def findTableStart : List Str → Option (List Str)
  | [] => none
  | l :: rest =>
    if startsW "|".data (trim l) && ((trim l).drop 1).contains '|' then
      some (l :: rest)
    else findTableStart rest

/-- Collect table lines: keep pipe-prefixed lines, skip blank lines, stop at
the first other line. -/
def collectTableLines : List Str → List Str
  | [] => []
  | l :: rest =>
    if startsW "|".data (trim l) then l :: collectTableLines rest
    else if (trim l).isEmpty then collectTableLines rest
    else []

/-- Everything `load_collection` computes that does not consume fresh ids. -/
structure LoadedCore where
  cname : Str
  ctype : Str
  created_at : Str
  updated_at : Str
  fields : List Field
  rowDatas : List (List (Str × Value))
deriving DecidableEq

/-- `load_collection`, up to the per-item `uuid4` draws.  A file that is
absent raises the not-found `PersistenceError` directly; a missing or
malformed frontmatter delimiter raises the format `PersistenceError`; a
YAML parse failure is an exception the catch-all wraps. -/
def loadCore (fs : FS) (dataDir : Str) (name : Str) : Except PyErr LoadedCore :=
  match fsRead fs.files (getFilePath dataDir name) with
  | none => .error (.persistenceError (notFoundMsg name))
  | some content =>
    if !startsW "---\n".data content then
      .error (.persistenceError (missingFrontmatterMsg name))
    else
      match findSplit delimPat (content.drop 4) with
      | none => .error (.persistenceError (malformedFrontmatterMsg name))
      | some pr =>
        match yamlParse pr.1 with
        | none => .error (.persistenceError (failLoadMsg name "invalid YAML".data))
        | some doc =>
          .ok ⟨doc.cname, doc.ctype, doc.created_at, doc.updated_at, doc.fields,
            tableRowDatas
              (match findTableStart (splitOnChar '\n' (trim pr.2)) with
               | none => []
               | some tailLines => joinWith "\n".data (collectTableLines tailLines))
              doc.fields⟩

/-- `load_collection`: the core result assembled into a `Collection`, with
item ids drawn from the supply. -/
def loadCollection (fs : FS) (dataDir : Str) (name : Str) (supply : Nat) :
    Except PyErr (Collection × Nat) :=
  match loadCore fs dataDir name with
  | .error e => .error e
  | .ok core =>
    .ok (⟨core.cname, core.ctype, core.fields, assignIds supply core.rowDatas,
          core.created_at, core.updated_at⟩,
         supply + core.rowDatas.length)

/-- `delete_collection`: not-found `PersistenceError` when absent, else
remove the file. -/
def deleteCollection (fs : FS) (dataDir : Str) (name : Str) : Except PyErr FS :=
  let path := getFilePath dataDir name
  match fsRead fs.files path with
  | none => .error (.persistenceError (notFoundMsg name))
  | some _ => .ok { fs with files := fs.files.filter fun q => !(q.1 == path) }

/-- `collection_exists`. -/
def collectionExists (fs : FS) (dataDir : Str) (name : Str) : Bool :=
  (fsRead fs.files (getFilePath dataDir name)).isSome

/-- Lexicographic order on char lists (for `sorted`). -/
def strLe : Str → Str → Bool
  | [], _ => true
  | _ :: _, [] => false
  | c :: cs, d :: ds => c < d || (c == d && strLe cs ds)

/-- Insertion sort by `strLe`. -/
def insertSorted (a : Str) : List Str → List Str
  | [] => [a]
  | b :: rest => if strLe a b then a :: b :: rest else b :: insertSorted a rest

/-- Sort a list of names. -/
def sortStrs : List Str → List Str
  | [] => []
  | a :: rest => insertSorted a (sortStrs rest)

/-- The stem of a direct `.md` child of `dir`, if the path is one. -/
def stemOf (dir : Str) (p : Str) : Option Str :=
  match matchDrop (dir ++ "/".data) p with
  | none => none
  | some rest =>
    if endsW ".md".data rest && !rest.contains '/' && rest.length > 3 then
      some (rest.dropLast.dropLast.dropLast)
    else none

/-- `list_collections`: stems of the `.md` files in the data directory,
sorted; enumerating an absent directory is the failure the catch-all wraps. -/
def listCollections (fs : FS) (dataDir : Str) : Except PyErr (List Str) :=
  if fs.dirs.contains dataDir then
    .ok (sortStrs (fs.files.filterMap fun q => stemOf dataDir q.1))
  else
    .error (.persistenceError
      ("Failed to list collections: ".data ++ "No such file or directory".data))

/-! ### Wellformedness predicates used by the round-trip theorems -/

/-- A scalar is safe for the modelled dumper when it carries no newline and
no single quote. -/
def scalarOk (s : Str) : Bool := !s.contains '\n' && !s.contains sq

/-- All scalars of a field entry are safe. -/
def fieldOk (f : Field) : Bool :=
  scalarOk f.name && scalarOk f.type && f.options.all scalarOk

/-- All scalars of the frontmatter are safe. -/
def yamlOk (c : Collection) : Bool :=
  scalarOk c.name && scalarOk c.type && scalarOk c.created_at &&
  scalarOk c.updated_at && c.fields.all fieldOk

/-- The fields block of the emitted frontmatter. -/
def fieldsBlock (c : Collection) : List Str :=
  if c.fields.isEmpty then ["fields: []".data]
  else "fields:".data :: (c.fields.map fieldLines).flatten


/-- The declared type of field `k` in collection `c` (`text` when the name
is not declared), as the decoder computes it. -/
def declaredType (c : Collection) (k : Str) : Str :=
  pyDictGetS (c.fields.map fun f => (f.name, f.type)) k "text".data

/-- A float value is renderable: its decimal string contains a dot, is
table-safe, and parses back to the same value (this is the claim's own
proviso that numbers survive according to the textual presence of a dot;
it fails for floats Python renders in scientific notation). -/
def floatOkB (q : ℚ) : Bool :=
  (floatStr q).contains '.' && !(floatStr q).contains '|' &&
  !(floatStr q).contains '\n' && (trim (floatStr q) == floatStr q) &&
  !(floatStr q).isEmpty && (pyParseFloat (floatStr q) == some q)

/-- A value matches the declared field type and renders to a cell the
decoder maps back to the same value. -/
def valueOkB (ft : Str) : Value → Bool
  | .vStr s =>
    (ft == "text".data || ft == "date".data || ft == "select".data) &&
    !s.isEmpty && (trim s == s) && !s.contains '|' && !s.contains '\n'
  | .vInt _ => ft == "number".data
  | .vFloat q => ft == "number".data && floatOkB q
  | .vBool _ => ft == "boolean".data

/-- A string is usable as a table column header cell. -/
def colNameOk (s : Str) : Bool :=
  !s.isEmpty && (trim s == s) && !s.contains '|' && !s.contains '\n'

/-- Field wellformedness for the round trip: header-safe unique name of a
known type, YAML-safe scalars. -/
def fieldWF (f : Field) : Bool :=
  colNameOk f.name && fieldOk f &&
  (f.type == "text".data || f.type == "number".data || f.type == "date".data ||
   f.type == "boolean".data || f.type == "select".data)

/-- Item wellformedness for the round trip: a nonempty dict with distinct
keys drawn from the field list, each value matching its declared type. -/
def itemWF (c : Collection) (it : Item) : Prop :=
  it.data ≠ [] ∧ (it.data.map Prod.fst).Nodup ∧
  ∀ p ∈ it.data, p.1 ∈ getFieldNames c ∧ valueOkB (declaredType c p.1) p.2 = true

/-- Collection wellformedness for the round trip. -/
def wellFormed (c : Collection) : Prop :=
  yamlOk c = true ∧ (getFieldNames c).Nodup ∧
  (∀ f ∈ c.fields, fieldWF f = true) ∧
  (∀ it ∈ c.items, itemWF c it)

instance (c : Collection) (it : Item) : Decidable (itemWF c it) := by
  unfold itemWF; infer_instance

instance (c : Collection) : Decidable (wellFormed c) := by
  unfold wellFormed; infer_instance

/-- A cell padded the way the encoder pads columns. -/
def padCell (s : Str) : Str := ' ' :: s ++ [' ']

/-- A pipe-table line built from a list of cells, as the encoder builds
headers, separators and rows. -/
def rowStr (xs : List Str) : Str :=
  "| ".data ++ joinWith " | ".data xs ++ " |".data

/-- The row dicts that decoding should recover: the item data re-ordered by
column order. -/
def reorder (names : List Str) (d : List (Str × Value)) :
    List (Str × Value) :=
  names.filterMap fun k => (dlookup k d).map fun v => (k, v)

/-- The body that follows the closing frontmatter delimiter in a saved
file: heading, blank line, optional table. -/
def mdPost (c : Collection) : Str :=
  "\n# ".data ++ c.name ++ "\n\n".data ++
  (if (itemsToMarkdownTable c).isEmpty then []
   else itemsToMarkdownTable c ++ "\n".data)

instance {ε α : Type} [DecidableEq ε] [DecidableEq α] :
    DecidableEq (Except ε α) := fun a b =>
  match a, b with
  | .ok x, .ok y =>
    if h : x = y then .isTrue (by rw [h])
    else .isFalse (by intro hx; cases hx; exact h rfl)
  | .error x, .error y =>
    if h : x = y then .isTrue (by rw [h])
    else .isFalse (by intro hx; cases hx; exact h rfl)
  | .ok _, .error _ => .isFalse (by intro hx; cases hx)
  | .error _, .ok _ => .isFalse (by intro hx; cases hx)

/-! ### Concrete instances used by witnesses and counterexamples -/

/-- A data directory path. -/
def ddir : Str := "data".data

/-- A filesystem in which the data directory exists and no file does. -/
def fs0 : FS := ⟨[ddir], []⟩

/-- A well-formed collection exercising all four value kinds. -/
def cW : Collection :=
  ⟨"Tasks".data, "todo".data,
   [⟨"task".data, "text".data, true, []⟩,
    ⟨"price".data, "number".data, false, []⟩,
    ⟨"done".data, "boolean".data, false, []⟩,
    ⟨"diff".data, "select".data, false, ["beginner".data, "advanced".data]⟩],
   [⟨"i1".data,
     [("task".data, .vStr "Walk dog".data), ("price".data, .vFloat (mkRat 999 100)),
      ("done".data, .vBool true), ("diff".data, .vStr "beginner".data)]⟩,
    ⟨"i2".data, [("task".data, .vStr "Buy".data), ("price".data, .vInt 2)]⟩],
   "2024-01-01T00:00:00".data, "2024-01-02T00:00:00".data⟩

/-- A collection whose single item has an empty data dict. -/
def cCE : Collection :=
  ⟨"A".data, "t".data, [⟨"t".data, "text".data, false, []⟩],
   [⟨"i0".data, []⟩], "2024-01-01T00:00:00".data, "2024-01-01T00:00:00".data⟩

/-- The filesystem after saving `cCE`. -/
def fsCEsaved : FS :=
  match saveCollection fs0 ddir cCE with
  | .ok fs => fs
  | .error _ => fs0

/-- The collection read back after saving `cCE`. -/
def cCEloaded : Collection :=
  match loadCollection fsCEsaved ddir cCE.name 0 with
  | .ok pr => pr.1
  | .error _ => cCE

/-- A collection whose single text value contains a pipe character. -/
def cPipe : Collection :=
  ⟨"P".data, "t".data, [⟨"t".data, "text".data, false, []⟩],
   [⟨"i0".data, [("t".data, .vStr "a|b".data)]⟩],
   "2024-01-01T00:00:00".data, "2024-01-01T00:00:00".data⟩

/-- A filesystem with one corrupt collection file (no frontmatter) and no
file for the name `a`. -/
def fsC3 : FS :=
  ⟨[ddir], [(getFilePath ddir "b".data, "garbage".data)]⟩

/-- A small collection with one item, for the double-load counterexample. -/
def cC8 : Collection :=
  ⟨"L".data, "t".data, [⟨"t".data, "text".data, false, []⟩],
   [⟨"i0".data, [("t".data, .vStr "x".data)]⟩],
   "2024-01-01T00:00:00".data, "2024-01-01T00:00:00".data⟩

/-- The filesystem after saving `cC8`. -/
def fsC8saved : FS :=
  match saveCollection fs0 ddir cC8 with
  | .ok fs => fs
  | .error _ => fs0

/-- The collection read by a first load of `cC8` (supply 0). -/
def cC8first : Collection :=
  match loadCollection fsC8saved ddir cC8.name 0 with
  | .ok pr => pr.1
  | .error _ => cC8

/-- The collection read by a second load of `cC8` (supply 1). -/
def cC8second : Collection :=
  match loadCollection fsC8saved ddir cC8.name 1 with
  | .ok pr => pr.1
  | .error _ => cC8

/-- A collection with items but an empty field list. -/
def cC9 : Collection :=
  ⟨"N".data, "t".data, [],
   [⟨"i0".data, [("x".data, .vStr "y".data)]⟩],
   "2024-01-01T00:00:00".data, "2024-01-01T00:00:00".data⟩

/-- The filesystem after saving `cW`. -/
def fsWsaved : FS :=
  match saveCollection fs0 ddir cW with
  | .ok fs => fs
  | .error _ => fs0

/-- The filesystem after saving `cPipe`. -/
def fsPipeSaved : FS :=
  match saveCollection fs0 ddir cPipe with
  | .ok fs => fs
  | .error _ => fs0

/-- The collection read back after saving `cPipe`. -/
def cPipeLoaded : Collection :=
  match loadCollection fsPipeSaved ddir cPipe.name 0 with
  | .ok pr => pr.1
  | .error _ => cPipe

/-- The filesystem after saving `cC9`. -/
def fsC9saved : FS :=
  match saveCollection fs0 ddir cC9 with
  | .ok fs => fs
  | .error _ => fs0

/-! ### Utility lemmas -/

theorem splitOnChar_ne_nil (sep : Char) (s : Str) : splitOnChar sep s ≠ [] := by
  cases s with
  | nil => simp [splitOnChar]
  | cons c rest =>
    simp only [splitOnChar]
    by_cases h : c == sep
    · simp [h]
    · simp only [h, if_neg, Bool.false_eq_true]
      cases hr : splitOnChar sep rest <;> simp

theorem splitOnChar_sepfree (sep : Char) (l : Str) (hl : sep ∉ l) :
    splitOnChar sep l = [l] := by
  induction l with
  | nil => rfl
  | cons c cs ih =>
    have hc : c ≠ sep := fun h => hl (h ▸ List.mem_cons_self c cs)
    have hcs : sep ∉ cs := fun h => hl (List.mem_cons_of_mem c h)
    simp only [splitOnChar, ih hcs]
    simp [beq_iff_eq, hc]

theorem splitOnChar_append_sep (sep : Char) (l s : Str) (hl : sep ∉ l) :
    splitOnChar sep (l ++ sep :: s) = l :: splitOnChar sep s := by
  induction l with
  | nil => simp [splitOnChar]
  | cons c cs ih =>
    have hc : c ≠ sep := fun h => hl (h ▸ List.mem_cons_self c cs)
    have hcs : sep ∉ cs := fun h => hl (List.mem_cons_of_mem c h)
    have hb : (c == sep) = false := by simp [beq_iff_eq, hc]
    simp only [List.cons_append, splitOnChar, hb, Bool.false_eq_true, if_false]
    rw [show cs.append (sep :: s) = cs ++ sep :: s from rfl, ih hcs]

theorem splitOnChar_joinWith (sep : Char) (ls : List Str) (hne : ls ≠ [])
    (hfree : ∀ l ∈ ls, sep ∉ l) :
    splitOnChar sep (joinWith [sep] ls) = ls := by
  induction ls with
  | nil => exact absurd rfl hne
  | cons l rest ih =>
    cases rest with
    | nil => exact splitOnChar_sepfree sep l (hfree l (by simp))
    | cons l2 rest2 =>
      have h1 : joinWith [sep] (l :: l2 :: rest2) =
          l ++ sep :: joinWith [sep] (l2 :: rest2) := by
        simp [joinWith]
      rw [h1, splitOnChar_append_sep sep l _ (hfree l (by simp)),
        ih (by simp) (fun x hx => hfree x (List.mem_cons_of_mem l hx))]

theorem startsW_prepend (p s : Str) : startsW p (p ++ s) = true := by
  induction p with
  | nil => rfl
  | cons c cs ih => simp [startsW, ih]

theorem startsW_head_ne (p c : Char) (ps cs : Str) (h : p ≠ c) :
    startsW (p :: ps) (c :: cs) = false := by
  simp [startsW, beq_iff_eq, h]

theorem startsW_weaken (p1 p2 s : Str) (h : startsW (p1 ++ p2) s = true) :
    startsW p1 s = true := by
  induction p1 generalizing s with
  | nil => rfl
  | cons c cs ih =>
    cases s with
    | nil => simp [startsW] at h
    | cons d ds =>
      simp only [List.cons_append, startsW, Bool.and_eq_true] at h ⊢
      exact ⟨h.1, ih ds h.2⟩

theorem findSplit_first (pat : Str) (hpat : pat ≠ []) (A B : Str)
    (hA : ∀ A1 A2, A = A1 ++ A2 → A2 ≠ [] → startsW pat (A2 ++ pat ++ B) = false) :
    findSplit pat (A ++ pat ++ B) = some (A, B) := by
  induction A with
  | nil =>
    cases hp : pat with
    | nil => exact absurd hp hpat
    | cons p ps =>
      simp only [List.nil_append]
      rw [hp] at *
      show findSplit (p :: ps) (p :: (ps ++ B)) = some ([], B)
      simp only [findSplit]
      rw [if_pos]
      · congr 1
        congr 1
        have : p :: (ps ++ B) = (p :: ps) ++ B := rfl
        rw [this, List.drop_left]
      · have : p :: (ps ++ B) = (p :: ps) ++ B := rfl
        rw [this]
        exact startsW_prepend (p :: ps) B
  | cons c A' ih =>
    have hfalse : startsW pat ((c :: A') ++ pat ++ B) = false :=
      hA [] (c :: A') rfl (by simp)
    have ih2 : findSplit pat (A' ++ pat ++ B) = some (A', B) := by
      apply ih
      intro A1 A2 hsplit hne
      exact hA (c :: A1) A2 (by rw [hsplit]; rfl) hne
    show findSplit pat (c :: (A' ++ pat ++ B)) = some (c :: A', B)
    simp only [findSplit]
    rw [show c :: (A' ++ pat ++ B) = (c :: A') ++ pat ++ B from rfl, hfalse]
    simp only [Bool.false_eq_true, if_false]
    rw [ih2]

/-- After a newline, a line that does not begin with two dashes cannot
start the closing delimiter. -/
theorem no_dashdash_start (l2 : Str) (rest2 : List Str) (B : Str)
    (h2 : startsW "--".data l2 = false) :
    startsW "---\n".data (joinWith "\n".data (l2 :: rest2) ++ delimPat ++ B) = false := by
  cases hl2 : l2 with
  | nil =>
    cases rest2 with
    | nil =>
      show startsW ('-' :: "--\n".data) (([] : Str) ++ delimPat ++ B) = false
      simp only [List.nil_append]
      exact startsW_head_ne '-' '\n' _ _ (by decide)
    | cons l3 rest3 =>
      have hj : joinWith "\n".data (([] : Str) :: l3 :: rest3) =
          '\n' :: joinWith "\n".data (l3 :: rest3) := by simp [joinWith]
      rw [hj]
      exact startsW_head_ne '-' '\n' _ _ (by decide)
  | cons d ds =>
    cases ds with
    | nil =>
      have hform : ∃ tl, joinWith "\n".data ([d] :: rest2) ++ delimPat ++ B =
          d :: '\n' :: tl := by
        cases rest2 with
        | nil => exact ⟨"---\n".data ++ B, by simp [joinWith, delimPat]⟩
        | cons l3 rest3 =>
          exact ⟨joinWith "\n".data (l3 :: rest3) ++ delimPat ++ B, by
            simp [joinWith]⟩
      rcases hform with ⟨tl, htl⟩
      rw [htl]
      by_cases hd : d = '-'
      · subst hd
        simp only [startsW, beq_self_eq_true, Bool.true_and]
        exact startsW_head_ne '-' '\n' _ _ (by decide)
      · exact startsW_head_ne '-' d _ _ (fun h => hd h.symm)
    | cons e es =>
      rw [hl2] at h2
      have hform : ∃ tl, joinWith "\n".data ((d :: e :: es) :: rest2) ++ delimPat ++ B =
          d :: e :: tl := by
        cases rest2 with
        | nil => exact ⟨es ++ delimPat ++ B, by simp [joinWith]⟩
        | cons l3 rest3 =>
          exact ⟨(es ++ '\n' :: joinWith "\n".data (l3 :: rest3)) ++ delimPat ++ B, by
            simp [joinWith]⟩
      rcases hform with ⟨tl, htl⟩
      rw [htl]
      by_cases hd : d = '-'
      · subst hd
        by_cases he : e = '-'
        · subst he
          simp [startsW] at h2
        · simp only [startsW, beq_self_eq_true, Bool.true_and]
          exact startsW_head_ne '-' e _ _ (fun h => he h.symm)
      · exact startsW_head_ne '-' d _ _ (fun h => hd h.symm)

/-- No line of a well-behaved line list lets the closing delimiter match
before the real one: lines are newline-free and never begin with two
dashes. -/
theorem no_early_delim (ls : List Str) (B : Str)
    (hls : ∀ l ∈ ls, ('\n' ∉ l) ∧ startsW "--".data l = false) :
    ∀ A1 A2, joinWith "\n".data ls = A1 ++ A2 → A2 ≠ [] →
      startsW delimPat (A2 ++ delimPat ++ B) = false := by
  induction ls with
  | nil =>
    intro A1 A2 hsplit hne
    have : A1 ++ A2 = [] := hsplit.symm
    rcases List.append_eq_nil.mp this with ⟨-, h2⟩
    exact absurd h2 hne
  | cons l rest ih =>
    intro A1 A2 hsplit hne
    cases rest with
    | nil =>
      have hj : joinWith "\n".data [l] = l := rfl
      rw [hj] at hsplit
      cases A2 with
      | nil => exact absurd rfl hne
      | cons c cs =>
        have hc : c ∈ l := by
          rw [hsplit]
          exact List.mem_append_right A1 (List.mem_cons_self c cs)
        have hcn : c ≠ '\n' := fun h => ((hls l (by simp)).1) (h ▸ hc)
        exact startsW_head_ne '\n' c _ _ (fun h => hcn h.symm)
    | cons l2 rest2 =>
      have hj : joinWith "\n".data (l :: l2 :: rest2) =
          l ++ '\n' :: joinWith "\n".data (l2 :: rest2) := by
        simp [joinWith]
      rw [hj] at hsplit
      set R := joinWith "\n".data (l2 :: rest2) with hR
      have hnlR : startsW delimPat (('\n' :: R) ++ delimPat ++ B) = false := by
        show startsW ('\n' :: "---\n".data) ('\n' :: (R ++ delimPat ++ B)) = false
        simp only [startsW, beq_self_eq_true, Bool.true_and]
        rw [hR]
        exact no_dashdash_start l2 rest2 B (hls l2 (by simp)).2
      rcases List.append_eq_append_iff.mp hsplit.symm with ⟨a', ha1, ha2⟩ | ⟨c', hc1, hc2⟩
      · cases a' with
        | nil =>
          simp only [List.nil_append] at ha2
          rw [ha2]
          exact hnlR
        | cons a0 a0s =>
          have ha0 : a0 ∈ l := by
            rw [ha1]
            exact List.mem_append_right A1 (List.mem_cons_self a0 a0s)
          have hna : a0 ≠ '\n' := fun h => ((hls l (by simp)).1) (h ▸ ha0)
          rw [ha2]
          exact startsW_head_ne '\n' a0 _ _ (fun h => hna h.symm)
      · cases c' with
        | nil =>
          simp only [List.nil_append] at hc2
          rw [← hc2]
          exact hnlR
        | cons c0 c0s =>
          have hc2' : '\n' :: R = c0 :: (c0s ++ A2) := by
            rw [hc2]; rfl
          have hc0 : c0 = '\n' := by injection hc2' with h1 _; exact h1.symm
          have hrest : c0s ++ A2 = R := by injection hc2' with _ h2; exact h2.symm
          exact ih (fun x hx => hls x (List.mem_cons_of_mem l hx)) c0s A2 hrest.symm hne

theorem trim_nil : trim [] = [] := rfl

theorem trim_eq_self (s : Str)
    (h1 : ∀ c, s.head? = some c → isWS c = false)
    (h2 : ∀ c, s.getLast? = some c → isWS c = false) :
    trim s = s := by
  have hd : s.dropWhile isWS = s := by
    cases s with
    | nil => rfl
    | cons c cs =>
      rw [List.dropWhile_cons, h1 c rfl]
      simp
  have hr : s.reverse.dropWhile isWS = s.reverse := by
    cases hs : s.reverse with
    | nil => rfl
    | cons c cs =>
      rw [List.dropWhile_cons]
      have : s.getLast? = some c := by
        rw [← List.head?_reverse, hs]
        rfl
      rw [h2 c this]
      simp
  unfold trim
  rw [hd, hr, List.reverse_reverse]

theorem trim_cons_ws (c : Char) (s : Str) (h : isWS c = true) :
    trim (c :: s) = trim s := by
  unfold trim
  rw [List.dropWhile_cons, h]
  simp

theorem trim_concat_ws (c : Char) (s : Str) (h : isWS c = true) :
    trim (s ++ [c]) = trim s := by
  unfold trim
  rw [List.dropWhile_append]
  by_cases he : (s.dropWhile isWS).isEmpty
  · rw [if_pos he]
    have : s.dropWhile isWS = [] := by
      cases hx : s.dropWhile isWS
      · rfl
      · rw [hx] at he; simp [List.isEmpty] at he
    rw [this]
    simp [List.dropWhile, h]
  · rw [if_neg he]
    rw [List.reverse_append]
    simp only [List.reverse_cons, List.reverse_nil, List.nil_append,
      List.singleton_append]
    rw [List.dropWhile_cons, h]
    simp

theorem trim_pad (s : Str) : trim (' ' :: s ++ [' ']) = trim s := by
  have h1 : trim (' ' :: (s ++ [' '])) = trim (s ++ [' ']) :=
    trim_cons_ws ' ' (s ++ [' ']) rfl
  have h2 : trim (s ++ [' ']) = trim s := trim_concat_ws ' ' s rfl
  calc trim (' ' :: s ++ [' ']) = trim (' ' :: (s ++ [' '])) := by simp
    _ = trim s := by rw [h1, h2]

theorem escapePipes_no_pipe (s : Str) (h : '|' ∉ s) : escapePipes s = s := by
  induction s with
  | nil => rfl
  | cons c cs ih =>
    have hc : c ≠ '|' := fun hx => h (hx ▸ List.mem_cons_self c cs)
    have hcs : '|' ∉ cs := fun hx => h (List.mem_cons_of_mem c hx)
    simp only [escapePipes, List.map_cons, List.flatten_cons] at *
    rw [ih hcs]
    simp [beq_iff_eq, hc]

theorem unescapePipes_no_pipe (s : Str) (h : '|' ∉ s) : unescapePipes s = s := by
  induction s using unescapePipes.induct with
  | case1 => rfl
  | case2 c => rfl
  | case3 c1 c2 rest hcond ih =>
    have hc2 : c2 ≠ '|' := fun hx =>
      h (hx ▸ List.mem_cons_of_mem c1 (List.mem_cons_self c2 rest))
    rw [Bool.and_eq_true, beq_iff_eq, beq_iff_eq] at hcond
    exact absurd hcond.2 hc2
  | case4 c1 c2 rest hcond ih =>
    have htail : '|' ∉ c2 :: rest := fun hx => h (List.mem_cons_of_mem c1 hx)
    rw [unescapePipes, if_neg hcond]
    rw [ih htail]

/-! ### Digit rendering and parsing round trip -/

theorem digitToChar_isDigit (d : Nat) (h : d < 10) :
    (digitToChar d).isDigit = true := by
  interval_cases d <;> decide

theorem digitVal_digitToChar (d : Nat) (h : d < 10) :
    digitVal (digitToChar d) = d := by
  interval_cases d <;> decide

theorem natDigitsGo_digits (f : Nat) :
    ∀ n, ∀ c ∈ natDigitsGo f n, c.isDigit = true := by
  induction f with
  | zero => intro n c hc; simp [natDigitsGo] at hc
  | succ f ih =>
    intro n c hc
    cases n with
    | zero => simp [natDigitsGo] at hc
    | succ m =>
      simp only [natDigitsGo, List.mem_cons] at hc
      rcases hc with h1 | h2
      · exact h1 ▸ digitToChar_isDigit _ (Nat.mod_lt _ (by omega))
      · exact ih _ c h2

theorem foldl_natDigitsGo (f : Nat) :
    ∀ n acc, n ≤ f →
      List.foldl (fun a c => a * 10 + digitVal c) acc ((natDigitsGo f n).reverse) =
        acc * 10 ^ (natDigitsGo f n).length + n := by
  induction f with
  | zero =>
    intro n acc h
    interval_cases n
    simp [natDigitsGo]
  | succ f ih =>
    intro n acc h
    cases n with
    | zero => simp [natDigitsGo]
    | succ m =>
      have hlt : (m + 1) / 10 < m + 1 := Nat.div_lt_self (by omega) (by omega)
      have hle : (m + 1) / 10 ≤ f := by omega
      simp only [natDigitsGo, List.reverse_cons, List.foldl_append, List.foldl_cons,
        List.foldl_nil, List.length_cons]
      rw [ih _ acc hle]
      rw [digitVal_digitToChar _ (Nat.mod_lt _ (by omega))]
      have hpow : acc * 10 ^ ((natDigitsGo f ((m + 1) / 10)).length + 1) =
          acc * 10 ^ (natDigitsGo f ((m + 1) / 10)).length * 10 := by ring
      rw [hpow]
      have hdm := Nat.div_add_mod (m + 1) 10
      set A := acc * 10 ^ (natDigitsGo f ((m + 1) / 10)).length with hA
      omega

theorem isDigit_toNat (c : Char) (h : c.isDigit = true) :
    48 ≤ c.toNat ∧ c.toNat ≤ 57 := by
  simp only [Char.isDigit, Bool.and_eq_true, decide_eq_true_eq] at h
  exact ⟨h.1, h.2⟩

theorem isDigit_ne (c : Char) (h : c.isDigit = true) (d : Char)
    (hd : d.toNat < 48 ∨ 57 < d.toNat) : c ≠ d := by
  intro he
  have := isDigit_toNat c h
  subst he
  omega

theorem isDigit_not_WS (c : Char) (h : c.isDigit = true) : isWS c = false := by
  have hv := isDigit_toNat c h
  simp only [isWS, Bool.or_eq_false_iff, beq_eq_false_iff_ne]
  refine ⟨⟨⟨?_, ?_⟩, ?_⟩, ?_⟩ <;>
    exact isDigit_ne c h _ (by left; decide)

theorem parseDigitsGo_digits (ds : Str) :
    ∀ acc, (∀ c ∈ ds, c.isDigit = true) →
      parseDigitsGo acc ds =
        some (List.foldl (fun a c => a * 10 + digitVal c) acc ds) := by
  induction ds with
  | nil => intro acc _; rfl
  | cons c rest ih =>
    intro acc h
    have hc : c.isDigit = true := h c (by simp)
    have hcu : (c == '_') = false := by
      simp [beq_iff_eq]
      exact isDigit_ne c hc '_' (by right; decide)
    rw [parseDigitsGo.eq_def]
    simp only [hcu, Bool.false_eq_true, if_false, hc, if_true]
    rw [ih _ (fun x hx => h x (List.mem_cons_of_mem c hx))]
    rfl

theorem parseUnsigned_digits (ds : Str) (hne : ds ≠ [])
    (hd : ∀ c ∈ ds, c.isDigit = true) :
    parseUnsigned ds =
      some (List.foldl (fun a c => a * 10 + digitVal c) 0 ds) := by
  cases ds with
  | nil => exact absurd rfl hne
  | cons c rest =>
    have hc : c.isDigit = true := hd c (by simp)
    rw [parseUnsigned, hc]
    simp only [if_true]
    rw [parseDigitsGo_digits rest _ (fun x hx => hd x (List.mem_cons_of_mem c hx))]
    simp [digitVal]

theorem natToStr_digits (n : Nat) : ∀ c ∈ natToStr n, c.isDigit = true := by
  intro c hc
  unfold natToStr at hc
  by_cases h : n = 0
  · subst h; simp at hc; subst hc; decide
  · rw [if_neg (by simpa using h)] at hc
    rw [List.mem_reverse] at hc
    exact natDigitsGo_digits n n c hc

theorem natToStr_ne_nil (n : Nat) : natToStr n ≠ [] := by
  unfold natToStr
  by_cases h : n = 0
  · subst h; simp
  · rw [if_neg (by simpa using h)]
    cases n with
    | zero => exact absurd rfl h
    | succ m => simp [natDigitsGo]

theorem parseUnsigned_natToStr (n : Nat) : parseUnsigned (natToStr n) = some n := by
  by_cases h : n = 0
  · subst h; decide
  · rw [parseUnsigned_digits _ (natToStr_ne_nil n) (natToStr_digits n)]
    unfold natToStr
    rw [if_neg (by simpa using h)]
    rw [foldl_natDigitsGo n n 0 (le_refl n)]
    simp

theorem intToStr_chars (n : Int) :
    ∀ c ∈ intToStr n, c.isDigit = true ∨ c = '-' := by
  intro c hc
  cases n with
  | ofNat m => exact Or.inl (natToStr_digits m c hc)
  | negSucc m =>
    simp only [intToStr, List.mem_cons] at hc
    rcases hc with h1 | h2
    · exact Or.inr h1
    · exact Or.inl (natToStr_digits (m + 1) c h2)

theorem intToStr_ne_nil (n : Int) : intToStr n ≠ [] := by
  cases n with
  | ofNat m => exact natToStr_ne_nil m
  | negSucc m => simp [intToStr]

theorem intToStr_not_mem (n : Int) (d : Char)
    (hd : (d.toNat < 48 ∨ 57 < d.toNat) ∧ d ≠ '-') : d ∉ intToStr n := by
  intro hmem
  rcases intToStr_chars n d hmem with h1 | h1
  · have := isDigit_toNat d h1
    rcases hd.1 with h2 | h2 <;> omega
  · exact hd.2 h1

theorem getLast?_cons_ne {α : Type} (a : α) (l : List α) (h : l ≠ []) :
    (a :: l).getLast? = l.getLast? := by
  cases l with
  | nil => exact absurd rfl h
  | cons b bs => exact List.getLast?_cons_cons

theorem trim_digits (s : Str) (hd : ∀ c ∈ s, c.isDigit = true) : trim s = s := by
  apply trim_eq_self
  · intro c hc
    exact isDigit_not_WS c (hd c (List.mem_of_mem_head? (by rw [hc]; simp)))
  · intro c hc
    exact isDigit_not_WS c (hd c (List.mem_of_mem_getLast? (by rw [hc]; simp)))

theorem trim_intToStr (n : Int) : trim (intToStr n) = intToStr n := by
  cases n with
  | ofNat m => exact trim_digits _ (natToStr_digits m)
  | negSucc m =>
    apply trim_eq_self
    · intro c hc
      simp only [intToStr, List.head?_cons, Option.some.injEq] at hc
      subst hc; decide
    · intro c hc
      simp only [intToStr] at hc
      rw [getLast?_cons_ne '-' _ (natToStr_ne_nil (m + 1))] at hc
      exact isDigit_not_WS c
        (natToStr_digits (m + 1) c (List.mem_of_mem_getLast? (by rw [hc]; simp)))

theorem pyParseInt_intToStr (n : Int) : pyParseInt (intToStr n) = some n := by
  cases n with
  | ofNat m =>
    have ht : trim (intToStr (Int.ofNat m)) = natToStr m := trim_intToStr _
    rw [pyParseInt, ht]
    rcases hx : natToStr m with _ | ⟨c, rest⟩
    · exact absurd hx (natToStr_ne_nil m)
    · have hc : c.isDigit = true := natToStr_digits m c (by rw [hx]; simp)
      have h1 : (c == '+') = false := by
        simp [beq_iff_eq]; exact isDigit_ne c hc '+' (by left; decide)
      have h2 : (c == '-') = false := by
        simp [beq_iff_eq]; exact isDigit_ne c hc '-' (by left; decide)
      simp only [h1, h2, Bool.false_eq_true, if_false]
      rw [← hx, parseUnsigned_natToStr m]
      rfl
  | negSucc m =>
    have ht : trim (intToStr (Int.negSucc m)) = '-' :: natToStr (m + 1) :=
      trim_intToStr _
    rw [pyParseInt, ht]
    have h1 : (('-' : Char) == '+') = false := by decide
    have h2 : (('-' : Char) == '-') = true := by decide
    simp only [h1, h2, Bool.false_eq_true, if_false, if_true]
    rw [parseUnsigned_natToStr (m + 1)]
    simp [Int.negSucc_eq]

/-! ### Frontmatter codec round trip -/

theorem scalarOk_not_mem (s : Str) (h : scalarOk s = true) :
    '\n' ∉ s ∧ sq ∉ s := by
  simp only [scalarOk, Bool.and_eq_true, Bool.not_eq_true'] at h
  constructor
  · have h1 := h.1
    simpa using h1
  · have h2 := h.2
    simpa using h2

theorem matchDrop_prepend (p s : Str) : matchDrop p (p ++ s) = some s := by
  unfold matchDrop
  rw [startsW_prepend]
  simp [List.drop_left]

theorem parseScalar_quoteOut (s : Str) : parseScalar (quoteOut s) = s := by
  unfold parseScalar quoteOut
  rw [if_pos]
  · simp [List.dropLast_concat]
  · refine Bool.and_eq_true _ _ |>.mpr ⟨Bool.and_eq_true _ _ |>.mpr ⟨?_, ?_⟩, ?_⟩
    · simp only [List.length_cons, List.length_append, List.length_cons,
        List.length_nil, decide_eq_true_eq]
      omega
    · simp
    · rw [show sq :: s ++ [sq] = (sq :: s) ++ [sq] from rfl, List.getLast?_concat]
      simp

theorem parseScalar_plainOut (s : Str) (h : sq ∉ s) :
    parseScalar (plainOut s) = s := by
  unfold plainOut
  by_cases hp : yamlPlainOk s = true
  · rw [if_pos hp]
    unfold parseScalar
    cases s with
    | nil => rfl
    | cons c cs =>
      have hc : c ≠ sq := fun hx => h (hx ▸ List.mem_cons_self c cs)
      rw [if_neg]
      intro hcontra
      rcases Bool.and_eq_true _ _ |>.mp hcontra with ⟨h1, _⟩
      rcases Bool.and_eq_true _ _ |>.mp h1 with ⟨_, h3⟩
      simp only [List.head?_cons, beq_iff_eq, Option.some.injEq, decide_eq_true_eq] at h3
      exact hc h3
  · rw [if_neg hp]
    exact parseScalar_quoteOut s

theorem plainOut_not_mem (s : Str) (a : Char) (ha : a ∉ s) (hq : a ≠ sq) :
    a ∉ plainOut s := by
  unfold plainOut
  by_cases hp : yamlPlainOk s = true
  · rw [if_pos hp]; exact ha
  · rw [if_neg hp]
    intro hmem
    rcases List.mem_cons.mp hmem with h1 | h1
    · exact hq h1
    · rcases List.mem_append.mp h1 with h2 | h2
      · exact ha h2
      · simp at h2; exact hq h2

theorem quoteOut_not_mem (s : Str) (a : Char) (ha : a ∉ s) (hq : a ≠ sq) :
    a ∉ quoteOut s := by
  unfold quoteOut
  intro hmem
  rcases List.mem_cons.mp hmem with h1 | h1
  · exact hq h1
  · rcases List.mem_append.mp h1 with h2 | h2
    · exact ha h2
    · simp at h2; exact hq h2

/-- Lines of the emitted frontmatter contain no newline characters. -/
theorem yamlLines_noNL (c : Collection) (h : yamlOk c = true) :
    ∀ l ∈ yamlDumpLines c, '\n' ∉ l := by
  simp only [yamlOk, Bool.and_eq_true] at h
  obtain ⟨⟨⟨⟨hn, ht⟩, hca⟩, hua⟩, hf⟩ := h
  have hnl : ('\n' : Char) ≠ sq := by decide
  intro l hl
  simp only [yamlDumpLines, List.mem_append, List.mem_cons] at hl
  rcases hl with (h1 | h1 | h1 | h1 | h1 | h1) | h1
  · subst h1; decide
  · subst h1
    intro hmem
    rcases List.mem_append.mp hmem with h2 | h2
    · simp at h2
    · exact plainOut_not_mem _ _ (scalarOk_not_mem _ hn).1 hnl h2
  · subst h1
    intro hmem
    rcases List.mem_append.mp hmem with h2 | h2
    · simp at h2
    · exact plainOut_not_mem _ _ (scalarOk_not_mem _ ht).1 hnl h2
  · subst h1
    intro hmem
    rcases List.mem_append.mp hmem with h2 | h2
    · simp at h2
    · exact quoteOut_not_mem _ _ (scalarOk_not_mem _ hca).1 hnl h2
  · subst h1
    intro hmem
    rcases List.mem_append.mp hmem with h2 | h2
    · simp at h2
    · exact quoteOut_not_mem _ _ (scalarOk_not_mem _ hua).1 hnl h2
  · simp at h1
  · by_cases hemp : c.fields.isEmpty
    · rw [if_pos hemp] at h1
      simp at h1
      subst h1; decide
    · rw [if_neg hemp] at h1
      rcases List.mem_cons.mp h1 with h2 | h2
      · subst h2; decide
      · rw [List.mem_flatten] at h2
        obtain ⟨ls, hls, hmem⟩ := h2
        rw [List.mem_map] at hls
        obtain ⟨f, hfmem, hfl⟩ := hls
        have hfok := List.all_eq_true.mp hf f hfmem
        simp only [fieldOk, Bool.and_eq_true] at hfok
        obtain ⟨⟨hfn, hft⟩, hfo⟩ := hfok
        subst hfl
        simp only [fieldLines, List.mem_append, List.mem_cons] at hmem
        rcases hmem with (h3 | h3 | h3 | h3) | h3
        · subst h3
          intro hx
          rcases List.mem_append.mp hx with h4 | h4
          · simp at h4
          · exact plainOut_not_mem _ _ (scalarOk_not_mem _ hfn).1 hnl h4
        · subst h3
          intro hx
          rcases List.mem_append.mp hx with h4 | h4
          · simp at h4
          · exact plainOut_not_mem _ _ (scalarOk_not_mem _ hft).1 hnl h4
        · subst h3
          intro hx
          by_cases hr : f.required = true
          · rw [if_pos hr] at hx
            exact absurd hx (by decide)
          · rw [if_neg hr] at hx
            exact absurd hx (by decide)
        · simp at h3
        · by_cases hoe : f.options.isEmpty
          · rw [if_pos hoe] at h3
            simp at h3
            subst h3; decide
          · rw [if_neg hoe] at h3
            rcases List.mem_cons.mp h3 with h4 | h4
            · subst h4; decide
            · rw [List.mem_map] at h4
              obtain ⟨o, homem, hol⟩ := h4
              have hook := List.all_eq_true.mp hfo o homem
              subst hol
              intro hx
              rcases List.mem_append.mp hx with h5 | h5
              · simp at h5
              · exact plainOut_not_mem _ _ (scalarOk_not_mem _ hook).1 hnl h5

/-- No emitted frontmatter line begins with two dashes (every line starts
with a known literal whose first two characters are never both dashes). -/
theorem yamlLines_noDashDash (c : Collection) :
    ∀ l ∈ yamlDumpLines c, startsW "--".data l = false := by
  intro l hl
  simp only [yamlDumpLines, List.mem_append, List.mem_cons] at hl
  rcases hl with (h1 | h1 | h1 | h1 | h1 | h1) | h1
  · subst h1; rfl
  · subst h1; rfl
  · subst h1; rfl
  · subst h1; rfl
  · subst h1; rfl
  · simp at h1
  · by_cases hemp : c.fields.isEmpty
    · rw [if_pos hemp] at h1
      simp at h1
      subst h1; rfl
    · rw [if_neg hemp] at h1
      rcases List.mem_cons.mp h1 with h2 | h2
      · subst h2; rfl
      · rw [List.mem_flatten] at h2
        obtain ⟨ls, hls, hmem⟩ := h2
        rw [List.mem_map] at hls
        obtain ⟨f, _, hfl⟩ := hls
        subst hfl
        simp only [fieldLines, List.mem_append, List.mem_cons] at hmem
        rcases hmem with (h3 | h3 | h3 | h3) | h3
        · subst h3; rfl
        · subst h3; rfl
        · subst h3; rfl
        · simp at h3
        · by_cases hoe : f.options.isEmpty
          · rw [if_pos hoe] at h3
            simp at h3
            subst h3; rfl
          · rw [if_neg hoe] at h3
            rcases List.mem_cons.mp h3 with h4 | h4
            · subst h4; rfl
            · rw [List.mem_map] at h4
              obtain ⟨o, _, hol⟩ := h4
              subst hol; rfl

theorem parseMeta_yamlDumpLines (c : Collection) (h : yamlOk c = true) :
    parseMeta (yamlDumpLines c) =
      some ((c.name, c.type, c.created_at, c.updated_at), fieldsBlock c) := by
  simp only [yamlOk, Bool.and_eq_true] at h
  obtain ⟨⟨⟨⟨hn, ht⟩, hca⟩, hua⟩, -⟩ := h
  have hshape : yamlDumpLines c =
      "collection:".data :: ("  name: ".data ++ plainOut c.name) ::
      ("  type: ".data ++ plainOut c.type) ::
      ("  created_at: ".data ++ quoteOut c.created_at) ::
      ("  updated_at: ".data ++ quoteOut c.updated_at) :: fieldsBlock c := by
    simp [yamlDumpLines, fieldsBlock]
  rw [hshape]
  simp only [parseMeta, beq_self_eq_true, if_true, matchDrop_prepend,
    Option.some_bind]
  rw [parseScalar_plainOut _ (scalarOk_not_mem _ hn).2,
      parseScalar_plainOut _ (scalarOk_not_mem _ ht).2,
      parseScalar_quoteOut, parseScalar_quoteOut]

theorem parseOptItems_recover (opts : List Str) (rest : List Str)
    (hq : ∀ o ∈ opts, sq ∉ o)
    (hrest : ∀ l, rest.head? = some l → startsW "  - ".data l = false) :
    parseOptItems ((opts.map fun o => "  - ".data ++ plainOut o) ++ rest) =
      (opts, rest) := by
  induction opts with
  | nil =>
    simp only [List.map_nil, List.nil_append]
    cases rest with
    | nil => rfl
    | cons l rest2 =>
      rw [parseOptItems]
      rw [hrest l rfl]
      simp
  | cons o os ih =>
    rw [show List.map (fun o => "  - ".data ++ plainOut o) (o :: os) ++ rest =
      ("  - ".data ++ plainOut o) ::
        (List.map (fun o => "  - ".data ++ plainOut o) os ++ rest) from rfl]
    rw [parseOptItems]
    rw [if_pos (startsW_prepend "  - ".data (plainOut o))]
    rw [ih (fun x hx => hq x (List.mem_cons_of_mem o hx))]
    have hdrop : ("  - ".data ++ plainOut o).drop 4 = plainOut o := by simp
    rw [hdrop, parseScalar_plainOut o (hq o (by simp))]

theorem parseReq_line (b : Bool) :
    parseReq ("  required: ".data ++ (if b then "true".data else "false".data)) =
      some b := by
  cases b <;> (unfold parseReq; rw [matchDrop_prepend]; rfl)

theorem parseFieldsGo_recover (fs : List Field) :
    ∀ fuel, fs.length ≤ fuel →
      (∀ f ∈ fs, fieldOk f = true) →
      parseFieldsGo fuel ((fs.map fieldLines).flatten) = some fs := by
  induction fs with
  | nil => intro fuel _ _; cases fuel <;> rfl
  | cons f fs' ih =>
    intro fuel hlen hok
    have hfok := hok f (by simp)
    simp only [fieldOk, Bool.and_eq_true] at hfok
    obtain ⟨⟨hfn, hft⟩, hfo⟩ := hfok
    cases fuel with
    | zero => simp at hlen
    | succ fuel' =>
      have hlen' : fs'.length ≤ fuel' := by simp at hlen; omega
      simp only [List.map_cons, List.flatten_cons]
      by_cases hoe : f.options.isEmpty
      · have hfl : fieldLines f =
            [("- name: ".data ++ plainOut f.name),
             ("  type: ".data ++ plainOut f.type),
             ("  required: ".data ++ (if f.required then "true".data else "false".data)),
             "  options: []".data] := by
          simp [fieldLines, hoe]
        rw [hfl]
        rw [show (["- name: ".data ++ plainOut f.name,
              "  type: ".data ++ plainOut f.type,
              "  required: ".data ++
                (if f.required then "true".data else "false".data),
              "  options: []".data] : List Str) ++ (List.map fieldLines fs').flatten =
            ("- name: ".data ++ plainOut f.name) ::
            ("  type: ".data ++ plainOut f.type) ::
            ("  required: ".data ++
              (if f.required then "true".data else "false".data)) ::
            "  options: []".data :: (List.map fieldLines fs').flatten from rfl]
        rw [parseFieldsGo]
        rw [matchDrop_prepend, matchDrop_prepend, parseReq_line]
        simp only [Option.some_bind, beq_self_eq_true, if_true]
        rw [ih fuel' hlen' (fun x hx => hok x (List.mem_cons_of_mem f hx))]
        have hoenil : f.options = [] := by
          cases hx : f.options
          · rfl
          · rw [hx] at hoe; simp at hoe
        have hfeq : (⟨parseScalar (plainOut f.name), parseScalar (plainOut f.type),
            f.required, []⟩ : Field) = f := by
          rw [parseScalar_plainOut _ (scalarOk_not_mem _ hfn).2,
              parseScalar_plainOut _ (scalarOk_not_mem _ hft).2, ← hoenil]
        rw [Option.map_some', hfeq]
      · have hfl : fieldLines f =
            ("- name: ".data ++ plainOut f.name) ::
            ("  type: ".data ++ plainOut f.type) ::
            ("  required: ".data ++ (if f.required then "true".data else "false".data)) ::
            "  options:".data ::
            (f.options.map fun o => "  - ".data ++ plainOut o) := by
          simp [fieldLines, hoe]
        rw [hfl]
        rw [show (("- name: ".data ++ plainOut f.name) ::
            ("  type: ".data ++ plainOut f.type) ::
            ("  required: ".data ++
              (if f.required then "true".data else "false".data)) ::
            "  options:".data ::
            (f.options.map fun o => "  - ".data ++ plainOut o)) ++
              (List.map fieldLines fs').flatten =
            ("- name: ".data ++ plainOut f.name) ::
            ("  type: ".data ++ plainOut f.type) ::
            ("  required: ".data ++
              (if f.required then "true".data else "false".data)) ::
            "  options:".data ::
            ((f.options.map fun o => "  - ".data ++ plainOut o) ++
              (List.map fieldLines fs').flatten) from by simp]
        rw [parseFieldsGo]
        rw [matchDrop_prepend, matchDrop_prepend, parseReq_line]
        have hrec := parseOptItems_recover f.options ((fs'.map fieldLines).flatten)
          (fun o ho => (scalarOk_not_mem o (List.all_eq_true.mp hfo o ho)).2)
          ?hhead
        case hhead =>
          intro l hl
          cases fs' with
          | nil => simp at hl
          | cons f2 fs2 =>
            simp only [List.map_cons, List.flatten_cons] at hl
            have hfl2 : (fieldLines f2 ++ (fs2.map fieldLines).flatten).head? =
                some ("- name: ".data ++ plainOut f2.name) := by
              simp [fieldLines]
            rw [hfl2] at hl
            cases hl
            rfl
        rw [hrec]
        simp only [Option.some_bind]
        rw [if_neg (by decide), if_pos (by rfl)]
        rw [ih fuel' hlen' (fun x hx => hok x (List.mem_cons_of_mem f hx))]
        have hfeq : (⟨parseScalar (plainOut f.name), parseScalar (plainOut f.type),
            f.required, f.options⟩ : Field) = f := by
          rw [parseScalar_plainOut _ (scalarOk_not_mem _ hfn).2,
              parseScalar_plainOut _ (scalarOk_not_mem _ hft).2]
        rw [Option.map_some', hfeq]

/-! ### Table codec round trip -/

theorem contains_false_iff (s : Str) (a : Char) :
    s.contains a = false ↔ a ∉ s := by
  constructor
  · intro h; simpa using h
  · intro h
    cases hx : s.contains a
    · rfl
    · exact absurd (by simpa using hx) h

theorem cellValue_cellOf (ft : Str) (v : Value) (h : valueOkB ft v = true) :
    cellValue ft (cellOf v) = v := by
  cases v with
  | vStr s =>
    simp only [valueOkB, Bool.and_eq_true, Bool.or_eq_true, beq_iff_eq,
      Bool.not_eq_true'] at h
    obtain ⟨⟨⟨⟨hft, -⟩, -⟩, hp⟩, -⟩ := h
    have hnp : '|' ∉ s := (contains_false_iff s '|').mp hp
    have hb : (ft == "boolean".data) = false := by
      rcases hft with (h1 | h1) | h1 <;> (subst h1; decide)
    have hn : (ft == "number".data) = false := by
      rcases hft with (h1 | h1) | h1 <;> (subst h1; decide)
    simp only [cellValue, cellOf, hb, hn, Bool.false_eq_true, if_false]
    rw [escapePipes_no_pipe s hnp, unescapePipes_no_pipe s hnp]
  | vInt n =>
    simp only [valueOkB, beq_iff_eq] at h
    subst h
    have hdot : (intToStr n).contains '.' = false :=
      (contains_false_iff _ '.').mpr
        (intToStr_not_mem n '.' ⟨Or.inl (by decide), by decide⟩)
    simp only [cellValue, cellOf]
    rw [if_neg (by decide), if_pos (by decide),
      if_neg (fun hx => by rw [hdot] at hx; exact Bool.false_ne_true hx),
      pyParseInt_intToStr n]
  | vFloat q =>
    simp only [valueOkB, Bool.and_eq_true, beq_iff_eq] at h
    obtain ⟨hft, hq⟩ := h
    subst hft
    simp only [floatOkB, Bool.and_eq_true, beq_iff_eq] at hq
    obtain ⟨⟨⟨⟨⟨hdot, -⟩, -⟩, -⟩, -⟩, hparse⟩ := hq
    simp only [cellValue, cellOf]
    rw [if_neg (by decide), if_pos (by decide), if_pos hdot, hparse]
  | vBool b =>
    simp only [valueOkB, beq_iff_eq] at h
    subst h
    cases b <;> simp [cellValue, cellOf]

theorem cellOf_safe (ft : Str) (v : Value) (h : valueOkB ft v = true) :
    cellOf v ≠ [] ∧ trim (cellOf v) = cellOf v ∧ '|' ∉ cellOf v ∧
      '\n' ∉ cellOf v := by
  cases v with
  | vStr s =>
    simp only [valueOkB, Bool.and_eq_true, Bool.not_eq_true', beq_iff_eq] at h
    obtain ⟨⟨⟨⟨-, hne⟩, htr⟩, hp⟩, hn⟩ := h
    have hnp : '|' ∉ s := (contains_false_iff s '|').mp hp
    have hnn : '\n' ∉ s := (contains_false_iff s '\n').mp hn
    rw [show cellOf (.vStr s) = escapePipes s from rfl, escapePipes_no_pipe s hnp]
    refine ⟨?_, htr, hnp, hnn⟩
    intro hx; rw [hx] at hne; simp at hne
  | vInt n =>
    refine ⟨intToStr_ne_nil n, trim_intToStr n, ?_, ?_⟩
    · exact intToStr_not_mem n '|' ⟨Or.inr (by decide), by decide⟩
    · exact intToStr_not_mem n '\n' ⟨Or.inl (by decide), by decide⟩
  | vFloat q =>
    simp only [valueOkB, Bool.and_eq_true, beq_iff_eq] at h
    obtain ⟨-, hq⟩ := h
    simp only [floatOkB, Bool.and_eq_true, Bool.not_eq_true', beq_iff_eq] at hq
    obtain ⟨⟨⟨⟨⟨-, hp⟩, hn⟩, htr⟩, hne⟩, -⟩ := hq
    simp only [cellOf]
    refine ⟨?_, htr, (contains_false_iff _ '|').mp hp,
      (contains_false_iff _ '\n').mp hn⟩
    intro hx; rw [hx] at hne; simp at hne
  | vBool b =>
    cases b <;> exact ⟨by decide, by decide, by decide, by decide⟩

theorem padJoin (cells : List Str) (hne : cells ≠ []) :
    ' ' :: joinWith " | ".data cells ++ [' '] =
      joinWith ['|'] (cells.map padCell) := by
  induction cells with
  | nil => exact absurd rfl hne
  | cons c rest ih =>
    cases rest with
    | nil => rfl
    | cons c2 rest2 =>
      have ih2 := ih (by simp)
      simp only [List.map_cons] at ih2 ⊢
      rw [show joinWith ['|'] (padCell c :: padCell c2 :: rest2.map padCell) =
        padCell c ++ ['|'] ++ joinWith ['|'] (padCell c2 :: rest2.map padCell)
        from by simp [joinWith]]
      rw [← ih2]
      simp [joinWith, padCell]

theorem padCell_no_sep (cells : List Str) (hfree : ∀ x ∈ cells, '|' ∉ x) :
    ∀ l ∈ cells.map padCell, '|' ∉ l := by
  intro l hl
  rw [List.mem_map] at hl
  obtain ⟨x, hx, hpl⟩ := hl
  subst hpl
  intro hmem
  rcases List.mem_cons.mp hmem with h1 | h1
  · exact absurd h1 (by decide)
  · rcases List.mem_append.mp h1 with h2 | h2
    · exact hfree x hx h2
    · simp at h2

theorem trim_padCell (s : Str) : trim (padCell s) = trim s := trim_pad s

/-- Splitting the inner slice of an encoded row recovers the trimmed
cells. -/
theorem split_inner (cells : List Str) (hne : cells ≠ [])
    (hfree : ∀ x ∈ cells, '|' ∉ x) :
    (splitOnChar '|' (' ' :: joinWith " | ".data cells ++ [' '])).map trim =
      cells.map trim := by
  rw [padJoin cells hne]
  rw [splitOnChar_joinWith '|' (cells.map padCell) (by simpa using hne)
    (padCell_no_sep cells hfree)]
  rw [List.map_map]
  congr 1
  funext x
  exact trim_padCell x

theorem rowStr_head (xs : List Str) : (rowStr xs).head? = some '|' := rfl

theorem rowStr_getLast (xs : List Str) : (rowStr xs).getLast? = some '|' := by
  unfold rowStr
  rw [show "| ".data ++ joinWith " | ".data xs ++ " |".data =
    ("| ".data ++ joinWith " | ".data xs ++ [' ']) ++ ['|'] from by simp]
  exact List.getLast?_concat _

theorem trim_rowStr (xs : List Str) : trim (rowStr xs) = rowStr xs := by
  apply trim_eq_self
  · intro c hc
    rw [rowStr_head] at hc
    cases hc; rfl
  · intro c hc
    rw [rowStr_getLast] at hc
    cases hc; rfl

theorem startsW_rowStr (xs : List Str) : startsW "|".data (rowStr xs) = true := rfl

theorem endsW_rowStr (xs : List Str) : endsW "|".data (rowStr xs) = true := by
  unfold endsW
  rw [show ("|".data : Str).reverse = ['|'] from rfl]
  rw [show (rowStr xs).reverse = '|' :: (("| ".data ++
    joinWith " | ".data xs ++ [' ']).reverse) from by simp [rowStr]]
  rfl

theorem innerCells_rowStr (xs : List Str) (hne : xs ≠ [])
    (hfree : ∀ x ∈ xs, '|' ∉ x) :
    innerCells (rowStr xs) = xs.map trim := by
  unfold innerCells rowStr
  rw [show ("| ".data ++ joinWith " | ".data xs ++ " |".data).drop 1 =
    (' ' :: joinWith " | ".data xs ++ [' ']) ++ ['|'] from by simp]
  rw [List.dropLast_concat]
  exact split_inner xs hne hfree

theorem joinWith_sep_noNL (xs : List Str) (hfree : ∀ x ∈ xs, '\n' ∉ x) :
    '\n' ∉ joinWith " | ".data xs := by
  induction xs with
  | nil => simp [joinWith]
  | cons x rest ih =>
    cases rest with
    | nil =>
      intro h2
      exact hfree x (by simp) (by simpa [joinWith] using h2)
    | cons y rest2 =>
      intro h2
      rw [show joinWith " | ".data (x :: y :: rest2) =
        x ++ " | ".data ++ joinWith " | ".data (y :: rest2) from by
          simp [joinWith]] at h2
      rcases List.mem_append.mp h2 with h3 | h3
      · rcases List.mem_append.mp h3 with h4 | h4
        · exact hfree x (by simp) h4
        · simp at h4
      · exact ih (fun z hz => hfree z (List.mem_cons_of_mem x hz)) h3

theorem rowStr_noNL (xs : List Str) (hfree : ∀ x ∈ xs, '\n' ∉ x) :
    '\n' ∉ rowStr xs := by
  unfold rowStr
  intro hmem
  rcases List.mem_append.mp hmem with h1 | h1
  · rcases List.mem_append.mp h1 with h2 | h2
    · simp at h2
    · exact joinWith_sep_noNL xs hfree h2
  · simp at h1

/-! ### Dict lemmas -/

theorem dlookup_mem {β : Type} (k : Str) (v : β) (d : List (Str × β))
    (h : dlookup k d = some v) : (k, v) ∈ d := by
  induction d with
  | nil => simp [dlookup] at h
  | cons p rest ih =>
    cases p with
    | mk a b =>
      rw [dlookup] at h
      by_cases he : (a == k) = true
      · rw [if_pos he] at h
        cases h
        have hak : a = k := beq_iff_eq.mp he
        subst hak
        exact List.mem_cons_self _ _
      · rw [if_neg he] at h
        exact List.mem_cons_of_mem _ (ih h)

theorem mem_dlookup {β : Type} (k : Str) (v : β) (d : List (Str × β))
    (hnd : (d.map Prod.fst).Nodup) (h : (k, v) ∈ d) :
    dlookup k d = some v := by
  induction d with
  | nil => simp at h
  | cons p rest ih =>
    rcases List.mem_cons.mp h with h1 | h1
    · subst h1
      simp [dlookup]
    · rw [List.map_cons, List.nodup_cons] at hnd
      have hk : p.1 ≠ k := by
        intro he
        exact hnd.1 (he ▸ (List.mem_map.mpr ⟨(k, v), h1, rfl⟩))
      rw [dlookup, if_neg (by simp [beq_iff_eq, hk])]
      exact ih hnd.2 h1

theorem dictSet_append {β : Type} (d : List (Str × β)) (k : Str) (v : β)
    (h : k ∉ d.map Prod.fst) : dictSet d k v = d ++ [(k, v)] := by
  induction d with
  | nil => rfl
  | cons p rest ih =>
    have hk : p.1 ≠ k := fun he => h (List.mem_map.mpr ⟨p, by simp, he⟩)
    rw [dictSet, if_neg (by simp [beq_iff_eq, hk])]
    rw [ih (fun hx => h (List.mem_cons_of_mem _ hx))]
    rfl

theorem reorder_keys (names : List Str) (d : List (Str × Value)) :
    (reorder names d).map Prod.fst =
      names.filter fun k => (dlookup k d).isSome := by
  induction names with
  | nil => rfl
  | cons k rest ih =>
    unfold reorder at ih ⊢
    rw [List.filterMap_cons, List.filter_cons]
    cases hx : dlookup k d with
    | none =>
      simp only [Option.map_none', hx]
      rw [if_neg (by simp [hx])]
      exact ih
    | some v =>
      simp only [Option.map_some', hx]
      rw [if_pos (by simp [hx])]
      rw [List.map_cons, ih]

theorem mem_reorder (names : List Str) (d : List (Str × Value)) (p : Str × Value)
    (h : p ∈ reorder names d) : p.1 ∈ names ∧ dlookup p.1 d = some p.2 := by
  unfold reorder at h
  rw [List.mem_filterMap] at h
  obtain ⟨k, hk, hmap⟩ := h
  cases hx : dlookup k d with
  | none => rw [hx] at hmap; simp at hmap
  | some v =>
    rw [hx] at hmap
    simp only [Option.map_some', Option.some.injEq] at hmap
    subst hmap
    exact ⟨hk, hx⟩

theorem reorder_mem (names : List Str) (d : List (Str × Value)) (k : Str)
    (v : Value) (hk : k ∈ names) (hv : dlookup k d = some v) :
    (k, v) ∈ reorder names d := by
  unfold reorder
  rw [List.mem_filterMap]
  exact ⟨k, hk, by rw [hv]; rfl⟩

theorem pyDictEq_reorder (names : List Str) (d : List (Str × Value))
    (hnn : names.Nodup) (hnd : (d.map Prod.fst).Nodup)
    (hsub : ∀ p ∈ d, p.1 ∈ names) :
    pyDictEq (reorder names d) d = true := by
  unfold pyDictEq
  rw [Bool.and_eq_true]
  constructor
  · rw [List.all_eq_true]
    intro p hp
    have := (mem_reorder names d p hp).2
    rw [this]
    exact beq_self_eq_true _
  · rw [List.all_eq_true]
    intro p hp
    have hl : dlookup p.1 d = some p.2 := mem_dlookup p.1 p.2 d hnd (by
      cases p; exact hp)
    have hmem : (p.1, p.2) ∈ reorder names d :=
      reorder_mem names d p.1 p.2 (hsub p hp) hl
    have hrnodup : ((reorder names d).map Prod.fst).Nodup := by
      rw [reorder_keys]
      exact hnn.filter _
    have := mem_dlookup p.1 p.2 (reorder names d) hrnodup hmem
    rw [this]
    exact beq_self_eq_true _

theorem reorder_ne_nil (names : List Str) (d : List (Str × Value))
    (hnd : (d.map Prod.fst).Nodup)
    (hne : d ≠ []) (hsub : ∀ p ∈ d, p.1 ∈ names) :
    reorder names d ≠ [] := by
  cases hd : d with
  | nil => exact absurd hd hne
  | cons p rest =>
    have hmm : (p.1, p.2) ∈ d := by
      rw [hd]
      cases p
      exact List.mem_cons_self _ _
    have hl : dlookup p.1 d = some p.2 := mem_dlookup _ _ _ hnd hmm
    have hms := reorder_mem names d p.1 p.2 (hsub (p.1, p.2) hmm) hl
    intro hx
    rw [hd, hx] at hms
    simp at hms

/-! ### Row decoding recovers the item data -/

theorem zip_self_map {β : Type} (l : List Str) (f : Str → β) :
    l.zip (l.map f) = l.map fun k => (k, f k) := by
  induction l with
  | nil => rfl
  | cons k rest ih => simp [ih]

theorem rowData_fold (ftypes : List (Str × Str)) (names : List Str)
    (d : List (Str × Value)) (acc : List (Str × Value))
    (hnn : names.Nodup)
    (hval : ∀ p ∈ d, valueOkB (pyDictGetS ftypes p.1 "text".data) p.2 = true)
    (hacc : ∀ k ∈ names, k ∉ acc.map Prod.fst) :
    List.foldl
      (fun acc p =>
        if p.2.isEmpty then acc
        else dictSet acc p.1 (cellValue (pyDictGetS ftypes p.1 "text".data) p.2))
      acc (names.map fun k => (k, cellOfData d k)) = acc ++ reorder names d := by
  induction names generalizing acc with
  | nil => simp [reorder]
  | cons k rest ih =>
    rw [List.nodup_cons] at hnn
    simp only [List.map_cons, List.foldl_cons]
    cases hx : dlookup k d with
    | none =>
      have hcell : cellOfData d k = [] := by
        unfold cellOfData
        rw [hx]
        rfl
      rw [show (if (k, cellOfData d k).2.isEmpty then acc
          else dictSet acc (k, cellOfData d k).1
            (cellValue (pyDictGetS ftypes (k, cellOfData d k).1 "text".data)
              (k, cellOfData d k).2)) = acc from by rw [hcell]; rfl]
      rw [ih acc hnn.2 (fun k2 hk2 => hacc k2 (List.mem_cons_of_mem k hk2))]
      unfold reorder
      rw [List.filterMap_cons, hx]
      rfl
    | some v =>
      have hvok := hval (k, v) (dlookup_mem k v d hx)
      have hsafe := cellOf_safe _ _ hvok
      have hcell : cellOfData d k = cellOf v := by
        unfold cellOfData
        rw [hx]
      have hemp : (cellOfData d k).isEmpty = false := by
        rw [hcell]
        cases hz : cellOf v
        · exact absurd hz hsafe.1
        · rfl
      rw [show (if (k, cellOfData d k).2.isEmpty then acc
          else dictSet acc (k, cellOfData d k).1
            (cellValue (pyDictGetS ftypes (k, cellOfData d k).1 "text".data)
              (k, cellOfData d k).2)) =
          dictSet acc k (cellValue (pyDictGetS ftypes k "text".data)
            (cellOfData d k)) from by rw [hemp]; rfl]
      rw [hcell, cellValue_cellOf _ _ hvok]
      rw [dictSet_append acc k v (hacc k (by simp))]
      have hacc2 : ∀ k2 ∈ rest, k2 ∉ (acc ++ [(k, v)]).map Prod.fst := by
        intro k2 hk2
        rw [List.map_append, List.mem_append]
        intro hor
        rcases hor with h1 | h1
        · exact hacc k2 (List.mem_cons_of_mem k hk2) h1
        · simp at h1
          exact hnn.1 (h1 ▸ hk2)
      rw [ih (acc ++ [(k, v)]) hnn.2 hacc2]
      unfold reorder
      rw [List.filterMap_cons, hx]
      simp

theorem rowData_recover (ftypes : List (Str × Str)) (names : List Str)
    (d : List (Str × Value)) (hnn : names.Nodup)
    (hval : ∀ p ∈ d, valueOkB (pyDictGetS ftypes p.1 "text".data) p.2 = true) :
    rowData ftypes (names.zip (names.map fun k => cellOfData d k)) =
      reorder names d := by
  unfold rowData
  rw [zip_self_map]
  rw [rowData_fold ftypes names d [] hnn hval (by simp)]
  rfl

theorem cells_safe (d : List (Str × Value)) (ftypes : List (Str × Str))
    (hval : ∀ p ∈ d, valueOkB (pyDictGetS ftypes p.1 "text".data) p.2 = true)
    (k : Str) :
    '|' ∉ cellOfData d k ∧ '\n' ∉ cellOfData d k ∧
      trim (cellOfData d k) = cellOfData d k := by
  unfold cellOfData
  cases hx : dlookup k d with
  | none => exact ⟨by simp [escapePipes], by simp [escapePipes], rfl⟩
  | some v =>
    have hvok := hval (k, v) (dlookup_mem k v d hx)
    have hsafe := cellOf_safe _ _ hvok
    exact ⟨hsafe.2.2.1, hsafe.2.2.2, hsafe.2.1⟩

theorem lineRowData_row (ftypes : List (Str × Str)) (names : List Str)
    (d : List (Str × Value))
    (hnn : names.Nodup) (hne : names ≠ [])
    (hval : ∀ p ∈ d, valueOkB (pyDictGetS ftypes p.1 "text".data) p.2 = true) :
    lineRowData ftypes names (rowStr (names.map fun k => cellOfData d k)) =
      some (reorder names d) := by
  have hcne : (names.map fun k => cellOfData d k) ≠ [] := by
    intro hx
    exact hne (List.map_eq_nil_iff.mp hx)
  have hfree : ∀ x ∈ names.map fun k => cellOfData d k, '|' ∉ x := by
    intro x hx
    rw [List.mem_map] at hx
    obtain ⟨k, -, hk⟩ := hx
    exact hk ▸ (cells_safe d ftypes hval k).1
  have htrim : ∀ x ∈ names.map fun k => cellOfData d k, trim x = x := by
    intro x hx
    rw [List.mem_map] at hx
    obtain ⟨k, -, hk⟩ := hx
    exact hk ▸ (cells_safe d ftypes hval k).2.2
  unfold lineRowData
  simp only [trim_rowStr]
  rw [show startsW ['|'] (rowStr (List.map (fun k => cellOfData d k) names)) =
    true from startsW_rowStr _]
  rw [show endsW ['|'] (rowStr (List.map (fun k => cellOfData d k) names)) =
    true from endsW_rowStr _]
  simp only [Bool.and_self, Bool.not_true, Bool.false_eq_true, if_false]
  rw [innerCells_rowStr _ hcne hfree]
  rw [List.map_congr_left htrim]
  rw [show (List.map (fun a => a) (List.map (fun k => cellOfData d k) names)) =
    List.map (fun k => cellOfData d k) names from by simp]
  rw [show ((List.map (fun k => cellOfData d k) names).length != names.length) =
    false from by simp]
  simp only [Bool.false_eq_true, if_false]
  rw [rowData_recover ftypes names d hnn hval]

theorem filterMap_all_some {α β : Type} (l : List α) (f : α → Option β)
    (g : α → β) (h : ∀ x ∈ l, f x = some (g x)) : l.filterMap f = l.map g := by
  induction l with
  | nil => rfl
  | cons x rest ih =>
    rw [List.filterMap_cons, h x (by simp), List.map_cons,
      ih (fun y hy => h y (List.mem_cons_of_mem x hy))]

theorem head?_append_left {α : Type} (l m : List α) (h : l ≠ []) :
    (l ++ m).head? = l.head? := by
  cases l with
  | nil => exact absurd rfl h
  | cons a rest => rfl

theorem joinWith_head_pipe (sep : Str) (ls : List Str) (hne : ls ≠ [])
    (h : ∀ l ∈ ls, l.head? = some '|') :
    (joinWith sep ls).head? = some '|' := by
  cases ls with
  | nil => exact absurd rfl hne
  | cons l rest =>
    have hlne : l ≠ [] := by
      intro hx
      have := h l (by simp)
      rw [hx] at this
      simp at this
    cases rest with
    | nil => exact h l (by simp)
    | cons l2 rest2 =>
      rw [show joinWith sep (l :: l2 :: rest2) =
        l ++ (sep ++ joinWith sep (l2 :: rest2)) from by simp [joinWith]]
      rw [head?_append_left _ _ hlne]
      exact h l (by simp)

theorem joinWith_getLast_pipe (sep : Str) (ls : List Str) (hne : ls ≠ [])
    (h : ∀ l ∈ ls, l.getLast? = some '|') :
    (joinWith sep ls).getLast? = some '|' := by
  induction ls with
  | nil => exact absurd rfl hne
  | cons l rest ih =>
    cases rest with
    | nil => exact h l (by simp)
    | cons l2 rest2 =>
      rw [show joinWith sep (l :: l2 :: rest2) =
        l ++ (sep ++ joinWith sep (l2 :: rest2)) from by simp [joinWith]]
      have hjne : joinWith sep (l2 :: rest2) ≠ [] := by
        intro hx
        have := ih (by simp) (fun x hx2 => h x (List.mem_cons_of_mem l hx2))
        rw [hx] at this
        simp at this
      rw [List.getLast?_append_of_ne_nil _ (by
        intro hx
        rcases List.append_eq_nil.mp hx with ⟨-, h2⟩
        exact hjne h2)]
      rw [List.getLast?_append_of_ne_nil _ hjne]
      exact ih (by simp) (fun x hx2 => h x (List.mem_cons_of_mem l hx2))

/-- Encoding then decoding the item table recovers each item data dict,
re-ordered by column order. -/
theorem tableRowDatas_encode (c : Collection)
    (hnn : (getFieldNames c).Nodup)
    (hfwf : ∀ f ∈ c.fields, fieldWF f = true)
    (hit : ∀ it ∈ c.items, itemWF c it)
    (hitems : c.items ≠ []) (hfns : getFieldNames c ≠ []) :
    tableRowDatas (itemsToMarkdownTable c) c.fields =
      c.items.map fun it => reorder (getFieldNames c) it.data := by
  have hnames_prop : ∀ x ∈ getFieldNames c, colNameOk x = true := by
    intro x hx
    rw [getFieldNames, List.mem_map] at hx
    obtain ⟨f, hf, hfx⟩ := hx
    have := hfwf f hf
    simp only [fieldWF, Bool.and_eq_true] at this
    exact hfx ▸ this.1.1
  have hnames_nl : ∀ x ∈ getFieldNames c, '\n' ∉ x := by
    intro x hx
    have := hnames_prop x hx
    simp only [colNameOk, Bool.and_eq_true, Bool.not_eq_true'] at this
    exact (contains_false_iff _ _).mp this.2
  have hnames_trim : ∀ x ∈ getFieldNames c, trim x = x := by
    intro x hx
    have := hnames_prop x hx
    simp only [colNameOk, Bool.and_eq_true, beq_iff_eq] at this
    exact this.1.1.2
  have hval : ∀ it ∈ c.items, ∀ p ∈ it.data,
      valueOkB (pyDictGetS (c.fields.map fun f => (f.name, f.type)) p.1
        "text".data) p.2 = true := by
    intro it hitm p hp
    exact ((hit it hitm).2.2 p hp).2
  -- the three groups of lines
  set names := getFieldNames c with hnamesdef
  set rows := c.items.map (rowLine names) with hrows
  have hT : itemsToMarkdownTable c =
      joinWith "\n".data (rowStr names :: rowStr (names.map fun _ => "---".data)
        :: rows) := by
    unfold itemsToMarkdownTable
    rw [if_neg (by
      intro hx
      rw [List.isEmpty_iff] at hx
      exact hitems hx)]
    rw [if_neg (by
      intro hx
      rw [List.isEmpty_iff] at hx
      exact hfns (hnamesdef ▸ hx))]
    rfl
  have hlines_nl : ∀ l ∈ rowStr names :: rowStr (names.map fun _ => "---".data)
      :: rows, '\n' ∉ l := by
    intro l hl
    rcases List.mem_cons.mp hl with h1 | h1
    · exact h1 ▸ rowStr_noNL names hnames_nl
    · rcases List.mem_cons.mp h1 with h2 | h2
      · refine h2 ▸ rowStr_noNL _ ?_
        intro x hx
        rw [List.mem_map] at hx
        obtain ⟨-, -, hx2⟩ := hx
        rw [← hx2]
        decide
      · rw [hrows, List.mem_map] at h2
        obtain ⟨it, hitm, hitl⟩ := h2
        refine hitl ▸ rowStr_noNL _ ?_
        intro x hx
        rw [List.mem_map] at hx
        obtain ⟨k, -, hk⟩ := hx
        exact hk ▸ (cells_safe it.data _ (hval it hitm) k).2.1
  have hsplit : splitOnChar '\n' (itemsToMarkdownTable c) =
      rowStr names :: rowStr (names.map fun _ => "---".data) :: rows := by
    rw [hT]
    exact splitOnChar_joinWith '\n' _ (by simp) hlines_nl
  have htrimT : trim (itemsToMarkdownTable c) = itemsToMarkdownTable c := by
    apply trim_eq_self
    · intro ch hch
      rw [hT, joinWith_head_pipe _ _ (by simp) (by
        intro l hl
        rcases List.mem_cons.mp hl with h1 | h1
        · exact h1 ▸ rowStr_head names
        · rcases List.mem_cons.mp h1 with h2 | h2
          · exact h2 ▸ rowStr_head _
          · rw [hrows, List.mem_map] at h2
            obtain ⟨it, -, hitl⟩ := h2
            exact hitl ▸ rowStr_head _)] at hch
      cases hch
      rfl
    · intro ch hch
      rw [hT, joinWith_getLast_pipe _ _ (by simp) (by
        intro l hl
        rcases List.mem_cons.mp hl with h1 | h1
        · exact h1 ▸ rowStr_getLast names
        · rcases List.mem_cons.mp h1 with h2 | h2
          · exact h2 ▸ rowStr_getLast _
          · rw [hrows, List.mem_map] at h2
            obtain ⟨it, -, hitl⟩ := h2
            exact hitl ▸ rowStr_getLast _)] at hch
      cases hch
      rfl
  have hempty : (itemsToMarkdownTable c).isEmpty = false := by
    rw [hT]
    cases hx : joinWith "\n".data
        (rowStr names :: rowStr (List.map (fun x => "---".data) names) :: rows) with
    | nil =>
      have := joinWith_head_pipe "\n".data
        (rowStr names :: rowStr (List.map (fun x => "---".data) names) :: rows)
        (by simp) (by
          intro l hl
          rcases List.mem_cons.mp hl with h1 | h1
          · exact h1 ▸ rowStr_head names
          · rcases List.mem_cons.mp h1 with h2 | h2
            · exact h2 ▸ rowStr_head _
            · rw [hrows, List.mem_map] at h2
              obtain ⟨it, -, hitl⟩ := h2
              exact hitl ▸ rowStr_head _)
      rw [hx] at this
      simp at this
    | cons a b => rfl
  have hnames_pipe : ∀ x ∈ names, '|' ∉ x := by
    intro x hx
    have := hnames_prop x hx
    simp only [colNameOk, Bool.and_eq_true, Bool.not_eq_true'] at this
    exact (contains_false_iff _ _).mp this.1.2
  have hrowsne : rows.length ≠ 0 := by
    rw [hrows]
    simp only [List.length_map]
    intro hx
    exact hitems (List.length_eq_zero.mp hx)
  unfold tableRowDatas
  rw [htrimT]
  simp only [hempty, Bool.false_eq_true, if_false, hsplit]
  rw [if_neg (by
    simp only [List.length_cons]
    omega)]
  simp only [trim_rowStr]
  rw [show startsW ['|'] (rowStr names) = true from startsW_rowStr _]
  rw [show endsW ['|'] (rowStr names) = true from endsW_rowStr _]
  simp only [Bool.and_self, Bool.not_true, Bool.false_eq_true, if_false]
  rw [innerCells_rowStr names hfns hnames_pipe]
  rw [List.map_congr_left hnames_trim]
  rw [show List.map (fun a => a) names = names from by simp]
  rw [hrows]
  rw [List.filterMap_map]
  rw [filterMap_all_some c.items _ (fun it => reorder names it.data) (by
    intro it hitm
    show lineRowData (c.fields.map fun f => (f.name, f.type)) names
      (rowLine names it) = some (reorder names it.data)
    rw [show rowLine names it =
      rowStr (names.map fun k => cellOfData it.data k) from rfl]
    exact lineRowData_row _ names it.data hnn hfns (hval it hitm))]
  rw [List.filter_eq_self.mpr (by
    intro a ha
    rw [List.mem_map] at ha
    obtain ⟨it, hitm, hita⟩ := ha
    have hiw := hit it hitm
    have hne2 : reorder names it.data ≠ [] :=
      reorder_ne_nil names it.data hiw.2.1 hiw.1
        (fun p hp => (hiw.2.2 p hp).1)
    rw [← hita]
    cases hz : reorder names it.data with
    | nil => exact absurd hz hne2
    | cons u v => rfl)]

theorem length_le_flatten (fs : List Field) :
    fs.length ≤ ((fs.map fieldLines).flatten).length := by
  induction fs with
  | nil => simp
  | cons f rest ih =>
    simp only [List.map_cons, List.flatten_cons, List.length_append,
      List.length_cons]
    have h4 : 1 ≤ (fieldLines f).length := by
      by_cases hoe : f.options.isEmpty <;> simp [fieldLines, hoe]
    omega

/-- Parsing the dumped frontmatter recovers the collection metadata and
field list exactly. -/
theorem yamlParse_yamlDump (c : Collection) (h : yamlOk c = true) :
    yamlParse (joinWith "\n".data (yamlDumpLines c)) =
      some ⟨c.name, c.type, c.created_at, c.updated_at, c.fields⟩ := by
  have hfieldsok : ∀ f ∈ c.fields, fieldOk f = true := by
    simp only [yamlOk, Bool.and_eq_true] at h
    exact fun f hf => List.all_eq_true.mp h.2 f hf
  unfold yamlParse
  rw [splitOnChar_joinWith '\n' (yamlDumpLines c)
      (by simp [yamlDumpLines]) (yamlLines_noNL c h)]
  rw [parseMeta_yamlDumpLines c h]
  simp only [Option.some_bind]
  by_cases hemp : c.fields.isEmpty
  · have hfb : fieldsBlock c = ["fields: []".data] := by
      simp [fieldsBlock, hemp]
    rw [hfb]
    rw [if_pos (beq_self_eq_true _)]
    have : c.fields = [] := List.isEmpty_iff.mp hemp
    rw [this]
  · have hfb : fieldsBlock c =
        "fields:".data :: (c.fields.map fieldLines).flatten := by
      simp [fieldsBlock, hemp]
    rw [hfb]
    rw [if_neg (by
      intro hx
      rw [beq_iff_eq] at hx
      injection hx with h1 h2
      exact absurd h1 (by decide))]
    simp only [beq_self_eq_true, if_true]
    rw [parseFieldsGo_recover c.fields _ (length_le_flatten c.fields) hfieldsok]
    rfl

/-! ### Locating the table in the saved file body -/

theorem trim_head (s : Str) (ch : Char) (h : s.head? = some ch)
    (hws : isWS ch = false) : (trim s).head? = some ch := by
  cases s with
  | nil => simp at h
  | cons c rest =>
    rw [List.head?_cons] at h
    cases h
    unfold trim
    rw [List.dropWhile_cons, hws]
    simp only [Bool.false_eq_true, if_false]
    rw [List.reverse_cons, List.dropWhile_append]
    by_cases he : (rest.reverse.dropWhile isWS).isEmpty
    · rw [if_pos he]
      rw [show List.dropWhile isWS [ch] = [ch] from by
        rw [List.dropWhile_cons, hws]; simp]
      rfl
    · rw [if_neg he]
      rw [List.reverse_append]
      simp

theorem contains_true_of_mem (s : Str) (a : Char) (h : a ∈ s) :
    s.contains a = true := by
  cases hx : s.contains a
  · exact absurd ((contains_false_iff s a).mp hx) (fun hn => hn h)
  · rfl

theorem startsW_pipe_false (s : Str) (ch : Char) (h : s.head? = some ch)
    (hne : ch ≠ '|') : startsW "|".data s = false := by
  cases s with
  | nil => simp at h
  | cons c rest =>
    rw [List.head?_cons] at h
    cases h
    exact startsW_head_ne '|' ch _ _ (fun hx => hne hx.symm)

theorem collectTableLines_all (ls : List Str)
    (h : ∀ l ∈ ls, startsW "|".data (trim l) = true) :
    collectTableLines ls = ls := by
  induction ls with
  | nil => rfl
  | cons l rest ih =>
    rw [collectTableLines, if_pos (h l (by simp))]
    rw [ih (fun x hx => h x (List.mem_cons_of_mem l hx))]

/-- With no table in the body, the scanner finds nothing. -/
theorem mdScan_empty (c : Collection)
    (htab : (itemsToMarkdownTable c).isEmpty = true)
    (hname_nl : '\n' ∉ c.name) :
    (match findTableStart (splitOnChar '\n' (trim (mdPost c))) with
      | none => ([] : Str)
      | some tailLines => joinWith "\n".data (collectTableLines tailLines)) =
      itemsToMarkdownTable c := by
  have hmd : mdPost c = '\n' :: (("# ".data ++ c.name ++ ['\n']) ++ ['\n']) := by
    unfold mdPost
    rw [if_pos htab]
    simp
  have htr : trim (mdPost c) = trim ("# ".data ++ c.name) := by
    rw [hmd, trim_cons_ws _ _ (by decide), trim_concat_ws _ _ (by decide)]
    rw [show "# ".data ++ c.name ++ ['\n'] = ("# ".data ++ c.name) ++ ['\n']
      from by simp]
    rw [trim_concat_ws _ _ (by decide)]
  have hheadtr : (trim ("# ".data ++ c.name)).head? = some '#' :=
    trim_head _ '#' rfl rfl
  have hnltr : '\n' ∉ trim ("# ".data ++ c.name) := by
    intro hmem
    unfold trim at hmem
    rw [List.mem_reverse] at hmem
    have h1 := (List.dropWhile_sublist _).subset hmem
    rw [List.mem_reverse] at h1
    have h2 := (List.dropWhile_sublist _).subset h1
    rcases List.mem_append.mp h2 with h3 | h3
    · simp at h3
    · exact hname_nl h3
  have hsingle : splitOnChar '\n' (trim (mdPost c)) =
      [trim ("# ".data ++ c.name)] := by
    rw [htr]
    exact splitOnChar_sepfree '\n' _ hnltr
  rw [hsingle]
  rw [show findTableStart [trim ("# ".data ++ c.name)] = none from by
    unfold findTableStart
    rw [show startsW "|".data (trim (trim ("# ".data ++ c.name))) = false from
      startsW_pipe_false _ '#' (trim_head _ '#' hheadtr rfl) (by decide)]
    simp [findTableStart]]
  rw [List.isEmpty_iff] at htab
  rw [htab]

/-- The body scanner recovers exactly the saved table (or nothing when no
table was written). -/
theorem mdScan_eq (c : Collection)
    (_hnn : (getFieldNames c).Nodup)
    (hfwf : ∀ f ∈ c.fields, fieldWF f = true)
    (hit : ∀ it ∈ c.items, itemWF c it)
    (hname_nl : '\n' ∉ c.name) :
    (match findTableStart (splitOnChar '\n' (trim (mdPost c))) with
      | none => ([] : Str)
      | some tailLines => joinWith "\n".data (collectTableLines tailLines)) =
      itemsToMarkdownTable c := by
  by_cases htab : (itemsToMarkdownTable c).isEmpty
  · exact mdScan_empty c htab hname_nl
  · -- a table was written
    set names := getFieldNames c with hnamesdef
    set rows := c.items.map (rowLine names) with hrows
    clear _hnn
    have hitems : c.items ≠ [] := by
      intro hx
      apply htab
      unfold itemsToMarkdownTable
      rw [if_pos (by rw [hx]; rfl)]
      rfl
    have hfns : names ≠ [] := by
      intro hx
      apply htab
      unfold itemsToMarkdownTable
      rw [if_neg (by
        intro hy
        rw [List.isEmpty_iff] at hy
        exact hitems hy)]
      rw [if_pos (by rw [← hnamesdef, hx]; rfl)]
      rfl
    have hnames_prop : ∀ x ∈ names, colNameOk x = true := by
      intro x hx
      rw [hnamesdef, getFieldNames, List.mem_map] at hx
      obtain ⟨f, hf, hfx⟩ := hx
      have := hfwf f hf
      simp only [fieldWF, Bool.and_eq_true] at this
      exact hfx ▸ this.1.1
    have hnames_nl : ∀ x ∈ names, '\n' ∉ x := by
      intro x hx
      have := hnames_prop x hx
      simp only [colNameOk, Bool.and_eq_true, Bool.not_eq_true'] at this
      exact (contains_false_iff _ _).mp this.2
    have hval : ∀ it ∈ c.items, ∀ p ∈ it.data,
        valueOkB (pyDictGetS (c.fields.map fun f => (f.name, f.type)) p.1
          "text".data) p.2 = true := by
      intro it hitm p hp
      exact ((hit it hitm).2.2 p hp).2
    have hT : itemsToMarkdownTable c =
        joinWith "\n".data (rowStr names :: rowStr (names.map fun _ => "---".data)
          :: rows) := by
      unfold itemsToMarkdownTable
      rw [if_neg (by
        intro hx
        rw [List.isEmpty_iff] at hx
        exact hitems hx)]
      rw [if_neg (by
        intro hx
        rw [List.isEmpty_iff] at hx
        exact hfns (hnamesdef ▸ hx))]
      rfl
    have hlines_pipe : ∀ l ∈ rowStr names :: rowStr (names.map fun _ => "---".data)
        :: rows, l.head? = some '|' ∧ l.getLast? = some '|' ∧ '\n' ∉ l := by
      intro l hl
      rcases List.mem_cons.mp hl with h1 | h1
      · exact h1 ▸ ⟨rowStr_head _, rowStr_getLast _, rowStr_noNL _ hnames_nl⟩
      · rcases List.mem_cons.mp h1 with h2 | h2
        · refine h2 ▸ ⟨rowStr_head _, rowStr_getLast _, rowStr_noNL _ ?_⟩
          intro x hx
          rw [List.mem_map] at hx
          obtain ⟨-, -, hx2⟩ := hx
          rw [← hx2]
          decide
        · rw [hrows, List.mem_map] at h2
          obtain ⟨it, hitm, hitl⟩ := h2
          refine hitl ▸ ⟨rowStr_head _, rowStr_getLast _, rowStr_noNL _ ?_⟩
          intro x hx
          rw [List.mem_map] at hx
          obtain ⟨k, -, hk⟩ := hx
          exact hk ▸ (cells_safe it.data _ (hval it hitm) k).2.1
    have hTlast : (itemsToMarkdownTable c).getLast? = some '|' := by
      rw [hT]
      exact joinWith_getLast_pipe _ _ (by simp) (fun l hl => (hlines_pipe l hl).2.1)
    have hTne : itemsToMarkdownTable c ≠ [] := by
      intro hx
      rw [hx] at hTlast
      simp at hTlast
    have hsplitT : splitOnChar '\n' (itemsToMarkdownTable c) =
        rowStr names :: rowStr (names.map fun _ => "---".data) :: rows := by
      rw [hT]
      exact splitOnChar_joinWith '\n' _ (by simp)
        (fun l hl => (hlines_pipe l hl).2.2)
    -- the body around the table
    have hmd : mdPost c = '\n' ::
        (("# ".data ++ c.name ++ '\n' :: '\n' :: itemsToMarkdownTable c)
          ++ ['\n']) := by
      unfold mdPost
      rw [if_neg (by
        intro hx
        rw [List.isEmpty_iff] at hx
        exact hTne hx)]
      simp
    have hrest_head : ("# ".data ++ c.name ++ '\n' :: '\n' ::
        itemsToMarkdownTable c).head? = some '#' := rfl
    have hrest_last : ("# ".data ++ c.name ++ '\n' :: '\n' ::
        itemsToMarkdownTable c).getLast? = some '|' := by
      rw [List.append_assoc]
      rw [List.getLast?_append_of_ne_nil _ (by
        intro hx
        rcases List.append_eq_nil.mp hx with ⟨-, h2⟩
        rw [show ('\n' :: '\n' :: itemsToMarkdownTable c) =
          ['\n', '\n'] ++ itemsToMarkdownTable c from rfl] at h2
        rcases List.append_eq_nil.mp h2 with ⟨h3, -⟩
        simp at h3)]
      rw [show ('\n' :: '\n' :: itemsToMarkdownTable c) =
        ['\n', '\n'] ++ itemsToMarkdownTable c from rfl]
      rw [List.getLast?_append_of_ne_nil _ (by
        intro hx
        rcases List.append_eq_nil.mp hx with ⟨-, h2⟩
        exact hTne h2)]
      rw [List.getLast?_append_of_ne_nil _ hTne]
      exact hTlast
    have htrmd : trim (mdPost c) =
        "# ".data ++ c.name ++ '\n' :: '\n' :: itemsToMarkdownTable c := by
      rw [hmd, trim_cons_ws _ _ (by decide), trim_concat_ws _ _ (by decide)]
      apply trim_eq_self
      · intro ch hch
        rw [hrest_head] at hch
        cases hch
        rfl
      · intro ch hch
        rw [hrest_last] at hch
        cases hch
        rfl
    have hsplitmd : splitOnChar '\n' (trim (mdPost c)) =
        ("# ".data ++ c.name) :: ([] : Str) ::
          rowStr names :: rowStr (names.map fun _ => "---".data) :: rows := by
      rw [htrmd]
      rw [show "# ".data ++ c.name ++ '\n' :: '\n' :: itemsToMarkdownTable c =
        ("# ".data ++ c.name) ++ '\n' ::
          ('\n' :: itemsToMarkdownTable c) from by simp]
      rw [splitOnChar_append_sep '\n' _ _ (by
        intro hmem
        rcases List.mem_append.mp hmem with h1 | h1
        · simp at h1
        · exact hname_nl h1)]
      rw [show splitOnChar '\n' ('\n' :: itemsToMarkdownTable c) =
        [] :: splitOnChar '\n' (itemsToMarkdownTable c) from by
          rw [splitOnChar]; simp]
      rw [hsplitT]
    rw [hsplitmd]
    rw [show findTableStart (("# ".data ++ c.name) :: ([] : Str) ::
        rowStr names :: rowStr (names.map fun _ => "---".data) :: rows) =
        some (rowStr names :: rowStr (names.map fun _ => "---".data) :: rows)
        from by
      rw [findTableStart]
      rw [show startsW "|".data (trim ("# ".data ++ c.name)) = false from
        startsW_pipe_false _ '#' (trim_head _ '#' rfl (by decide)) (by decide)]
      simp only [Bool.false_and, Bool.false_eq_true, if_false]
      rw [findTableStart]
      rw [show startsW "|".data (trim ([] : Str)) = false from rfl]
      simp only [Bool.false_and, Bool.false_eq_true, if_false]
      rw [findTableStart]
      rw [trim_rowStr]
      rw [show startsW "|".data (rowStr names) = true from startsW_rowStr _]
      rw [show ((rowStr names).drop 1).contains '|' = true from
        contains_true_of_mem _ _ (by
          rw [show (rowStr names).drop 1 =
            ' ' :: (joinWith " | ".data names ++ [' ', '|']) from by
              simp [rowStr]]
          refine List.mem_cons_of_mem _ (List.mem_append_right _ ?_)
          simp)]
      simp]
    show joinWith "\n".data (collectTableLines (rowStr names ::
      rowStr (names.map fun _ => "---".data) :: rows)) = itemsToMarkdownTable c
    rw [collectTableLines_all _ (by
      intro l hl
      have := (hlines_pipe l hl).1
      rw [show trim l = l from trim_eq_self l
        (fun ch hch => by
          rw [(hlines_pipe l hl).1] at hch
          cases hch
          rfl)
        (fun ch hch => by
          rw [(hlines_pipe l hl).2.1] at hch
          cases hch
          rfl)]
      cases hx : l with
      | nil =>
        rw [hx] at this
        simp at this
      | cons a b =>
        rw [hx] at this
        rw [List.head?_cons] at this
        cases this
        rfl)]
    rw [← hT]

/-! ### Save and load assembled -/

theorem dlookup_dictSet_self {β : Type} (d : List (Str × β)) (k : Str) (v : β) :
    dlookup k (dictSet d k v) = some v := by
  induction d with
  | nil => simp [dictSet, dlookup]
  | cons p rest ih =>
    rw [dictSet]
    by_cases he : (p.1 == k) = true
    · rw [if_pos he, dlookup, if_pos he]
    · rw [if_neg he, dlookup, if_neg he]
      exact ih

theorem saveCollection_ok (fs : FS) (dataDir : Str) (c : Collection)
    (hdir : fs.dirs.contains dataDir = true) :
    saveCollection fs dataDir c = .ok
      ⟨fs.dirs, dictSet fs.files (getFilePath dataDir c.name) (saveContent c)⟩ := by
  unfold saveCollection
  rw [if_pos hdir]

theorem saveContent_decomp (c : Collection) :
    saveContent c = "---\n".data ++
      (joinWith "\n".data (yamlDumpLines c) ++ (delimPat ++ mdPost c)) := by
  unfold saveContent yamlDump mdPost delimPat
  by_cases htab : (itemsToMarkdownTable c).isEmpty
  · rw [if_pos htab, if_pos htab]
    simp
  · rw [if_neg htab, if_neg htab]
    simp

theorem drop4_header (X : Str) : ("---\n".data ++ X).drop 4 = X := by simp

/-- The table codec round trip, including the no-table degenerate case. -/
theorem tableRoundTrip (c : Collection) (hwf : wellFormed c) :
    tableRowDatas (itemsToMarkdownTable c) c.fields =
      c.items.map fun it => reorder (getFieldNames c) it.data := by
  obtain ⟨-, hnn, hfwf, hit⟩ := hwf
  by_cases hitems : c.items = []
  · rw [show itemsToMarkdownTable c = [] from by
      unfold itemsToMarkdownTable
      rw [if_pos (by rw [hitems]; rfl)]]
    rw [hitems]
    rfl
  · have hfns : getFieldNames c ≠ [] := by
      cases hx : c.items with
      | nil => exact absurd hx hitems
      | cons it rest =>
        have hiw := hit it (by rw [hx]; simp)
        cases hd : it.data with
        | nil => exact absurd hd hiw.1
        | cons p prest =>
          have hmem := (hiw.2.2 p (by rw [hd]; simp)).1
          intro hy
          rw [hy] at hmem
          simp at hmem
    exact tableRowDatas_encode c hnn hfwf hit hitems hfns

/-- Loading right after saving recovers the metadata, the field list, and
the per-item data dicts (re-ordered by column order). -/
theorem loadCore_saved (fs : FS) (dataDir : Str) (c : Collection) (fs' : FS)
    (hdir : fs.dirs.contains dataDir = true)
    (hwf : wellFormed c)
    (hsave : saveCollection fs dataDir c = .ok fs') :
    loadCore fs' dataDir c.name =
      .ok ⟨c.name, c.type, c.created_at, c.updated_at, c.fields,
        c.items.map fun it => reorder (getFieldNames c) it.data⟩ := by
  obtain ⟨hy, hnn, hfwf, hit⟩ := hwf
  have hfs' : fs' =
      ⟨fs.dirs, dictSet fs.files (getFilePath dataDir c.name) (saveContent c)⟩ := by
    rw [saveCollection_ok fs dataDir c hdir] at hsave
    cases hsave
    rfl
  subst hfs'
  have hname_nl : '\n' ∉ c.name := by
    simp only [yamlOk, Bool.and_eq_true] at hy
    exact (scalarOk_not_mem _ hy.1.1.1.1).1
  have hread : fsRead (dictSet fs.files (getFilePath dataDir c.name)
      (saveContent c)) (getFilePath dataDir c.name) = some (saveContent c) :=
    dlookup_dictSet_self _ _ _
  have hstarts : startsW "---\n".data (saveContent c) = true := by
    rw [saveContent_decomp]
    exact startsW_prepend _ _
  have hdrop : (saveContent c).drop 4 =
      joinWith "\n".data (yamlDumpLines c) ++ (delimPat ++ mdPost c) := by
    rw [saveContent_decomp]
    exact drop4_header _
  have hfind : findSplit delimPat ((saveContent c).drop 4) =
      some (joinWith "\n".data (yamlDumpLines c), mdPost c) := by
    rw [hdrop]
    rw [show joinWith "\n".data (yamlDumpLines c) ++ (delimPat ++ mdPost c) =
      joinWith "\n".data (yamlDumpLines c) ++ delimPat ++ mdPost c from by simp]
    exact findSplit_first delimPat (by decide) _ _
      (no_early_delim (yamlDumpLines c) (mdPost c)
        (fun l hl => ⟨yamlLines_noNL c hy l hl, yamlLines_noDashDash c l hl⟩))
  have hparse := yamlParse_yamlDump c hy
  have hscan := mdScan_eq c hnn hfwf hit hname_nl
  have htab := tableRoundTrip c ⟨hy, hnn, hfwf, hit⟩
  unfold loadCore
  rw [hread]
  simp only [hstarts, Bool.not_true, Bool.false_eq_true, if_false, hfind,
    hparse, hscan, htab]

/-! ### Fresh-id helpers, directory creation, sanitizer helpers -/

theorem assignIds_data (s : Nat) (ds : List (List (Str × Value))) :
    (assignIds s ds).map Item.data = ds := by
  induction ds generalizing s with
  | nil => rfl
  | cons d rest ih => simp [assignIds, ih]

theorem strList_contains_iff (l : List Str) (a : Str) :
    l.contains a = true ↔ a ∈ l := by
  rw [List.contains]
  exact List.elem_iff

theorem joinWith_cons_head (sep : Str) (c : Char) (g : Str) (gs : List Str) :
    joinWith sep ((c :: g) :: gs) = c :: joinWith sep (g :: gs) := by
  cases gs with
  | nil => rfl
  | cons g2 gs2 => simp [joinWith]

theorem joinWith_splitOnChar (sep : Char) (s : Str) :
    joinWith [sep] (splitOnChar sep s) = s := by
  induction s with
  | nil => rfl
  | cons c rest ih =>
    rw [splitOnChar]
    by_cases h : (c == sep) = true
    · rw [if_pos h]
      cases hr : splitOnChar sep rest with
      | nil => exact absurd hr (splitOnChar_ne_nil sep rest)
      | cons g gs =>
        have : joinWith [sep] ([] :: g :: gs) = sep :: joinWith [sep] (g :: gs) := by
          simp [joinWith]
        rw [this, ← hr, ih, beq_iff_eq.mp h]
    · rw [if_neg h]
      cases hr : splitOnChar sep rest with
      | nil => exact absurd hr (splitOnChar_ne_nil sep rest)
      | cons g gs =>
        rw [joinWith_cons_head, ← hr, ih]

theorem ancestorsOf_self (dir : Str) : dir ∈ ancestorsOf dir := by
  unfold ancestorsOf
  simp only [List.mem_map, List.mem_range]
  have hne := splitOnChar_ne_nil '/' dir
  have hlen : (splitOnChar '/' dir).length ≠ 0 := by
    intro h
    exact hne (List.length_eq_zero.mp h)
  refine ⟨(splitOnChar '/' dir).length - 1, by omega, ?_⟩
  rw [show (splitOnChar '/' dir).length - 1 + 1 = (splitOnChar '/' dir).length by omega]
  rw [List.take_length]
  exact joinWith_splitOnChar '/' dir

theorem addAll_sub (l ds : List Str) (a : Str) (ha : a ∈ ds) : a ∈ addAll ds l := by
  induction l generalizing ds with
  | nil => exact ha
  | cons b rest ih =>
    rw [addAll]
    by_cases h : ds.contains b = true
    · rw [if_pos h]
      exact ih ds ha
    · rw [if_neg h]
      exact ih _ (List.mem_append_left _ ha)

theorem addAll_mem (l ds : List Str) (a : Str) (ha : a ∈ l) : a ∈ addAll ds l := by
  induction l generalizing ds with
  | nil => simp at ha
  | cons b rest ih =>
    rw [addAll]
    rcases List.mem_cons.mp ha with h | h
    · subst h
      by_cases hc : ds.contains a = true
      · rw [if_pos hc]
        exact addAll_sub rest ds a ((strList_contains_iff ds a).mp hc)
      · rw [if_neg hc]
        exact addAll_sub rest _ a (List.mem_append_right _ (by simp))
    · by_cases hc : ds.contains b = true
      · rw [if_pos hc]
        exact ih ds h
      · rw [if_neg hc]
        exact ih _ h

theorem addAll_noop (l ds : List Str) (h : ∀ a ∈ l, ds.contains a = true) :
    addAll ds l = ds := by
  induction l with
  | nil => rfl
  | cons b rest ih =>
    rw [addAll, if_pos (h b (List.mem_cons_self b rest))]
    exact ih (fun a ha => h a (List.mem_cons_of_mem b ha))

theorem stripDotSpace_subset (s : Str) (c : Char) (h : c ∈ stripDotSpace s) :
    c ∈ s := by
  simp only [stripDotSpace] at h
  rw [List.mem_reverse] at h
  have h1 := (List.dropWhile_sublist _).subset h
  rw [List.mem_reverse] at h1
  exact (List.dropWhile_sublist _).subset h1

theorem loadCollection_saved (fs : FS) (dataDir : Str) (c : Collection) (fs' : FS)
    (supply : Nat)
    (hdir : fs.dirs.contains dataDir = true)
    (hwf : wellFormed c)
    (hsave : saveCollection fs dataDir c = .ok fs') :
    loadCollection fs' dataDir c.name supply =
      .ok (⟨c.name, c.type, c.fields,
            assignIds supply (c.items.map fun it => reorder (getFieldNames c) it.data),
            c.created_at, c.updated_at⟩,
           supply + c.items.length) := by
  unfold loadCollection
  rw [loadCore_saved fs dataDir c fs' hdir hwf hsave]
  simp

/-! ### Claim theorems -/

/-- C1: for a collection with a well-formed field list and items whose data
values match their fields' declared types (as captured by `wellFormed`,
which additionally requires each item's data dict to be nonempty — see the
counterexample), saving and re-loading recovers the name, type, field list,
timestamps, and each item's data mapping up to Python dict equality. -/
theorem C1_save_load_round_trip (fs : FS) (dataDir : Str) (c : Collection)
    (fs' : FS) (supply : Nat)
    (hdir : fs.dirs.contains dataDir = true)
    (hwf : wellFormed c)
    (hsave : saveCollection fs dataDir c = .ok fs') :
    ∃ c2 supply2,
      loadCollection fs' dataDir c.name supply = .ok (c2, supply2) ∧
      c2.name = c.name ∧ c2.type = c.type ∧ c2.fields = c.fields ∧
      c2.created_at = c.created_at ∧ c2.updated_at = c.updated_at ∧
      List.Forall₂ (fun d1 d2 => pyDictEq d1 d2 = true)
        (c2.items.map Item.data) (c.items.map Item.data) := by
  refine ⟨_, _, loadCollection_saved fs dataDir c fs' supply hdir hwf hsave,
    rfl, rfl, rfl, rfl, rfl, ?_⟩
  show List.Forall₂ _
    ((assignIds supply (c.items.map fun it =>
      reorder (getFieldNames c) it.data)).map Item.data) _
  rw [assignIds_data]
  rw [List.forall₂_map_left_iff, List.forall₂_map_right_iff, List.forall₂_same]
  intro it hit
  obtain ⟨-, hnn, -, hitw⟩ := hwf
  obtain ⟨-, hnd, hsub⟩ := hitw it hit
  exact pyDictEq_reorder (getFieldNames c) it.data hnn hnd (fun p hp => (hsub p hp).1)

/-- C1 witness: the round trip at a concrete well-formed collection with a
text, a number (integer and real), a boolean and a select column. -/
theorem C1_save_load_round_trip_witness :
    (fs0.dirs.contains ddir = true ∧ wellFormed cW ∧
     saveCollection fs0 ddir cW = .ok fsWsaved) ∧
    (∃ c2 supply2,
      loadCollection fsWsaved ddir cW.name 0 = .ok (c2, supply2) ∧
      c2.name = cW.name ∧ c2.type = cW.type ∧ c2.fields = cW.fields ∧
      c2.created_at = cW.created_at ∧ c2.updated_at = cW.updated_at ∧
      List.Forall₂ (fun d1 d2 => pyDictEq d1 d2 = true)
        (c2.items.map Item.data) (cW.items.map Item.data)) :=
  ⟨⟨by decide, by decide, by decide⟩,
   C1_save_load_round_trip fs0 ddir cW fsWsaved 0 (by decide) (by decide) (by decide)⟩

/-- C1 counterexample: `cCE` satisfies the claim's hypothesis as stated
(unique field names of known types; every item data value matches its
field's declared type — vacuously, its one item's data dict being empty),
yet the round trip loses the item: the saved table renders the item as an
all-empty row, decode omits every empty cell, and the `if item_data:` guard
then drops the row, so the loaded collection has no items. -/
theorem C1_empty_data_item_dropped :
    (getFieldNames cCE).Nodup ∧
    (∀ f ∈ cCE.fields, fieldWF f = true) ∧
    (∀ it ∈ cCE.items, ∀ p ∈ it.data,
        p.1 ∈ getFieldNames cCE ∧ valueOkB (declaredType cCE p.1) p.2 = true) ∧
    saveCollection fs0 ddir cCE = .ok fsCEsaved ∧
    loadCollection fsCEsaved ddir cCE.name 0 = .ok (cCEloaded, 0) ∧
    cCE.items.length = 1 ∧ cCEloaded.items = [] := by
  decide

/-- C3 (amended): loading or deleting an absent collection raises a plain
`PersistenceError` whose message says not found (raised before the body
that the catch-all wraps, and passed through unwrapped by the
`except PersistenceError: raise` clause); there is no distinct
`NotFoundError` class. -/
theorem C3_absent_raises_plain_persistence_error (fs : FS) (dataDir name : Str)
    (supply : Nat)
    (h : fsRead fs.files (getFilePath dataDir name) = none) :
    loadCollection fs dataDir name supply =
      .error (.persistenceError (notFoundMsg name)) ∧
    deleteCollection fs dataDir name =
      .error (.persistenceError (notFoundMsg name)) := by
  constructor
  · unfold loadCollection loadCore
    rw [h]
  · simp only [deleteCollection]
    rw [h]

/-- C3 witness: the absent name `a` in a store holding only a corrupt `b`. -/
theorem C3_absent_raises_plain_persistence_error_witness :
    fsRead fsC3.files (getFilePath ddir "a".data) = none ∧
    (loadCollection fsC3 ddir "a".data 0 =
      .error (.persistenceError (notFoundMsg "a".data)) ∧
    deleteCollection fsC3 ddir "a".data =
      .error (.persistenceError (notFoundMsg "a".data))) :=
  ⟨by decide,
   C3_absent_raises_plain_persistence_error fsC3 ddir "a".data 0 (by decide)⟩

/-- C3 counterexample: the errors for an absent collection and for a corrupt
one are values of the same single `PersistenceError` class, differing only
in their message strings, so a caller cannot distinguish the two cases
without inspecting the message — there is no separate `NotFoundError`. -/
theorem C3_absent_and_corrupt_same_class :
    loadCollection fsC3 ddir "a".data 0 =
      .error (.persistenceError (notFoundMsg "a".data)) ∧
    deleteCollection fsC3 ddir "a".data =
      .error (.persistenceError (notFoundMsg "a".data)) ∧
    loadCollection fsC3 ddir "b".data 0 =
      .error (.persistenceError (missingFrontmatterMsg "b".data)) ∧
    PyErr.isPersistence (.persistenceError (notFoundMsg "a".data)) = true ∧
    PyErr.isPersistence (.persistenceError (missingFrontmatterMsg "b".data)) = true := by
  decide

/-- C8 (amended): two loads of the same saved file agree on the name, type,
field list, timestamps, and the per-item data dicts — everything except the
item ids, which each load draws fresh from `uuid4` (see the
counterexample, which shows full equality fails). -/
theorem C8_repeated_load_same_data (fs : FS) (dataDir name : Str)
    (s1 s2 n1 n2 : Nat) (c1 c2 : Collection)
    (h1 : loadCollection fs dataDir name s1 = .ok (c1, n1))
    (h2 : loadCollection fs dataDir name s2 = .ok (c2, n2)) :
    c1.name = c2.name ∧ c1.type = c2.type ∧ c1.fields = c2.fields ∧
    c1.created_at = c2.created_at ∧ c1.updated_at = c2.updated_at ∧
    c1.items.map Item.data = c2.items.map Item.data := by
  unfold loadCollection at h1 h2
  cases hcore : loadCore fs dataDir name with
  | error e =>
    rw [hcore] at h1
    exact absurd h1 (by simp)
  | ok core =>
    rw [hcore] at h1 h2
    simp only [Except.ok.injEq, Prod.mk.injEq] at h1 h2
    obtain ⟨hc1, -⟩ := h1
    obtain ⟨hc2, -⟩ := h2
    subst hc1
    subst hc2
    refine ⟨rfl, rfl, rfl, rfl, rfl, ?_⟩
    show (assignIds s1 core.rowDatas).map Item.data =
      (assignIds s2 core.rowDatas).map Item.data
    rw [assignIds_data, assignIds_data]

/-- C8 witness: two consecutive loads of the saved collection `L` agree on
all persisted content. -/
theorem C8_repeated_load_same_data_witness :
    (loadCollection fsC8saved ddir cC8.name 0 = .ok (cC8first, 1) ∧
     loadCollection fsC8saved ddir cC8.name 1 = .ok (cC8second, 2)) ∧
    (cC8first.name = cC8second.name ∧ cC8first.type = cC8second.type ∧
     cC8first.fields = cC8second.fields ∧
     cC8first.created_at = cC8second.created_at ∧
     cC8first.updated_at = cC8second.updated_at ∧
     cC8first.items.map Item.data = cC8second.items.map Item.data) :=
  ⟨⟨by decide, by decide⟩,
   C8_repeated_load_same_data fsC8saved ddir cC8.name 0 1 1 2 cC8first cC8second
     (by decide) (by decide)⟩

/-- C8 counterexample: the two loaded collections are not equal — each load
wraps the rows in fresh `Item`s whose `uuid4` ids differ, so repeated loads
are equal only up to ids, not as dataclass values. -/
theorem C8_repeated_load_not_equal :
    saveCollection fs0 ddir cC8 = .ok fsC8saved ∧
    loadCollection fsC8saved ddir cC8.name 0 = .ok (cC8first, 1) ∧
    loadCollection fsC8saved ddir cC8.name 1 = .ok (cC8second, 2) ∧
    cC8first ≠ cC8second ∧
    cC8first.items.map Item.id ≠ cC8second.items.map Item.id := by
  decide

/-- C2: refuted in the code — the encoder does escape each pipe in a text
value to backslash-pipe (first conjunct) and the decoder's text branch
would unescape it back (second conjunct), but `_markdown_table_to_items`
splits each row line on every `|` before unescaping, so the escaped cell
produces extra cells, the column-count check fails, the whole row is
silently skipped, and the value (in fact the whole item) does not survive
the round trip: the loaded collection has no items. -/
theorem C2_pipe_row_dropped_on_load :
    cellOf (.vStr "a|b".data) = ['a', '\\', '|', 'b'] ∧
    unescapePipes ['a', '\\', '|', 'b'] = "a|b".data ∧
    saveCollection fs0 ddir cPipe = .ok fsPipeSaved ∧
    loadCollection fsPipeSaved ddir cPipe.name 0 = .ok (cPipeLoaded, 0) ∧
    cPipe.items.length = 1 ∧
    cPipeLoaded.items = [] := by
  decide

/-- C4: boolean cell coercion — `true` encodes to the check mark and
decodes back to `true`; any cell other than exactly the check mark decodes
to `false` (shown for an arbitrary nonempty non-check-mark cell); and an
empty cell is skipped by the row decoder, leaving the key out of the item
data entirely. -/
theorem C4_boolean_cell_coercion (v : Str) (_hne : v ≠ []) (hnc : v ≠ "✓".data) :
    cellOf (.vBool true) = "✓".data ∧
    cellOf (.vBool false) = "✗".data ∧
    cellValue "boolean".data "✓".data = .vBool true ∧
    cellValue "boolean".data v = .vBool false ∧
    (∀ ftypes pairs k,
      rowData ftypes ((k, ([] : Str)) :: pairs) = rowData ftypes pairs) := by
  refine ⟨rfl, rfl, by decide, ?_, ?_⟩
  · unfold cellValue
    rw [if_pos (by decide)]
    have : (v == "✓".data) = false := by
      simp [beq_iff_eq]
      exact hnc
    rw [this]
  · intro ftypes pairs k
    simp [rowData]

/-- C4 witness: the cross mark is nonempty and differs from the check mark,
and decodes to `false`. -/
theorem C4_boolean_cell_coercion_witness :
    ("✗".data ≠ [] ∧ "✗".data ≠ "✓".data) ∧
    cellValue "boolean".data "✗".data = .vBool false :=
  ⟨⟨by decide, by decide⟩,
   (C4_boolean_cell_coercion "✗".data (by decide) (by decide)).2.2.2.1⟩

/-- C5: number cell coercion — a cell containing a dot is parsed as a
float, one without as an int, and in either branch a parse failure falls
back to the raw cell text with backslash-pipe unescaped, never an error. -/
theorem C5_number_cell_coercion (v : Str) :
    (v.contains '.' = true → ∀ q, pyParseFloat v = some q →
        cellValue "number".data v = .vFloat q) ∧
    (v.contains '.' = true → pyParseFloat v = none →
        cellValue "number".data v = .vStr (unescapePipes v)) ∧
    (v.contains '.' = false → ∀ n, pyParseInt v = some n →
        cellValue "number".data v = .vInt n) ∧
    (v.contains '.' = false → pyParseInt v = none →
        cellValue "number".data v = .vStr (unescapePipes v)) := by
  refine ⟨?_, ?_, ?_, ?_⟩
  · intro hd q hq
    unfold cellValue
    rw [if_neg (by decide), if_pos (by decide), if_pos hd, hq]
  · intro hd hq
    unfold cellValue
    rw [if_neg (by decide), if_pos (by decide), if_pos hd, hq]
  · intro hd n hn
    unfold cellValue
    rw [if_neg (by decide), if_pos (by decide),
      if_neg (by rw [hd]; exact Bool.false_ne_true), hn]
  · intro hd hn
    unfold cellValue
    rw [if_neg (by decide), if_pos (by decide),
      if_neg (by rw [hd]; exact Bool.false_ne_true), hn]

/-- C5 witness: the spec's own example — `9.99` decodes to the real
999/100, `4` to the integer 4, and the non-numeric dotted cell `1.2.3`
falls back to the raw string. -/
theorem C5_number_cell_coercion_witness :
    ("9.99".data.contains '.' = true ∧
      pyParseFloat "9.99".data = some (mkRat 999 100) ∧
      cellValue "number".data "9.99".data = .vFloat (mkRat 999 100)) ∧
    ("4".data.contains '.' = false ∧ pyParseInt "4".data = some 4 ∧
      cellValue "number".data "4".data = .vInt 4) ∧
    (pyParseFloat "1.2.3".data = none ∧
      cellValue "number".data "1.2.3".data = .vStr "1.2.3".data) :=
  ⟨⟨by decide, by decide,
    (C5_number_cell_coercion "9.99".data).1 (by decide) _ (by decide)⟩,
   ⟨by decide, by decide,
    (C5_number_cell_coercion "4".data).2.2.1 (by decide) _ (by decide)⟩,
   ⟨by decide,
    (C5_number_cell_coercion "1.2.3".data).2.1 (by decide) (by decide)⟩⟩

/-- C6: a data line whose trimmed cell count differs from the header's
column count decodes to `none` (no item, no error), and the row decode of a
table's data lines with such a line present equals the decode with it
removed — the other rows are unaffected. -/
theorem C6_malformed_row_skipped (ftypes : List (Str × Str))
    (fieldNames : List Str) (line : Str) (pre post : List Str)
    (hc : (innerCells (trim line)).length ≠ fieldNames.length) :
    lineRowData ftypes fieldNames line = none ∧
    (pre ++ line :: post).filterMap (lineRowData ftypes fieldNames) =
      (pre ++ post).filterMap (lineRowData ftypes fieldNames) := by
  have hnone : lineRowData ftypes fieldNames line = none := by
    simp only [lineRowData]
    by_cases hse :
        (startsW "|".data (trim line) && endsW "|".data (trim line)) = true
    · rw [if_neg (by simp [hse])]
      rw [if_pos (by simpa using hc)]
    · have hx := Bool.eq_false_iff.mpr hse
      rw [if_pos (by rw [hx]; rfl)]
  refine ⟨hnone, ?_⟩
  rw [List.filterMap_append, List.filterMap_append,
    List.filterMap_cons_none hnone]

/-- C6 witness: a two-cell row under a one-column header is skipped while
the surrounding well-formed rows still decode. -/
theorem C6_malformed_row_skipped_witness :
    ((innerCells (trim "| a | b |".data)).length ≠ ["t".data].length) ∧
    (lineRowData [("t".data, "text".data)] ["t".data] "| a | b |".data = none ∧
     (["| x |".data] ++ "| a | b |".data :: ["| y |".data]).filterMap
        (lineRowData [("t".data, "text".data)] ["t".data]) =
      (["| x |".data] ++ ["| y |".data]).filterMap
        (lineRowData [("t".data, "text".data)] ["t".data])) :=
  ⟨by decide,
   C6_malformed_row_skipped [("t".data, "text".data)] ["t".data]
     "| a | b |".data ["| x |".data] ["| y |".data] (by decide)⟩

/-- C7: the sanitizer is total and safe — for every input it returns a
nonempty string free of the unsafe characters, substituting the literal
fallback name exactly when the replaced-and-stripped result is empty (it
is a pure function of its input by construction). -/
theorem C7_sanitize_totality (name : Str) :
    sanitizeFilename name ≠ [] ∧
    (∀ c ∈ sanitizeFilename name, c ∉ unsafeChars) ∧
    ((stripDotSpace (name.map fun c =>
        if unsafeChars.contains c then '_' else c)).isEmpty = true →
      sanitizeFilename name = "unnamed_collection".data) := by
  simp only [sanitizeFilename]
  by_cases h : (stripDotSpace (name.map fun c =>
      if unsafeChars.contains c then '_' else c)).isEmpty = true
  · rw [if_pos h]
    refine ⟨by decide, ?_, fun _ => rfl⟩
    have hall : ∀ c ∈ "unnamed_collection".data, c ∉ unsafeChars := by decide
    exact hall
  · rw [if_neg h]
    refine ⟨?_, ?_, fun hh => absurd hh h⟩
    · intro hx
      exact h (by rw [hx]; rfl)
    · intro c hc
      have hc2 := stripDotSpace_subset _ c hc
      rw [List.mem_map] at hc2
      obtain ⟨c0, hc0, hmap⟩ := hc2
      by_cases hu : unsafeChars.contains c0 = true
      · rw [if_pos hu] at hmap
        rw [← hmap]
        decide
      · rw [if_neg hu] at hmap
        rw [← hmap]
        exact (contains_false_iff unsafeChars c0).mp (Bool.eq_false_iff.mpr hu)

/-- C7 witness: the reference test's problem name. -/
theorem C7_sanitize_totality_witness :
    sanitizeFilename "Test/Collection<>:|?*".data ≠ [] ∧
    (∀ c ∈ sanitizeFilename "Test/Collection<>:|?*".data, c ∉ unsafeChars) ∧
    ((stripDotSpace ("Test/Collection<>:|?*".data.map fun c =>
        if unsafeChars.contains c then '_' else c)).isEmpty = true →
      sanitizeFilename "Test/Collection<>:|?*".data =
        "unnamed_collection".data) :=
  C7_sanitize_totality "Test/Collection<>:|?*".data

/-- C9: a collection with an empty field list encodes to the empty table
regardless of its items, the saved file carries no table, and loading it
back yields a collection with no items — every item is silently lost. -/
theorem C9_empty_fields_drop_items (fs : FS) (dataDir : Str) (c : Collection)
    (fs' : FS) (supply : Nat)
    (hdir : fs.dirs.contains dataDir = true)
    (hy : yamlOk c = true)
    (hf : c.fields = [])
    (_hne : c.items ≠ [])
    (hsave : saveCollection fs dataDir c = .ok fs') :
    itemsToMarkdownTable c = [] ∧
    loadCollection fs' dataDir c.name supply =
      .ok (⟨c.name, c.type, c.fields, [], c.created_at, c.updated_at⟩, supply) := by
  have hgf : getFieldNames c = [] := by rw [getFieldNames, hf]; rfl
  have htab0 : itemsToMarkdownTable c = [] := by
    simp only [itemsToMarkdownTable, hgf]
    by_cases hi : c.items.isEmpty = true
    · rw [if_pos hi]
    · rw [if_neg hi]
      simp
  have hfs' : fs' =
      ⟨fs.dirs, dictSet fs.files (getFilePath dataDir c.name) (saveContent c)⟩ := by
    rw [saveCollection_ok fs dataDir c hdir] at hsave
    cases hsave
    rfl
  subst hfs'
  have hy2 := hy
  simp only [yamlOk, Bool.and_eq_true] at hy2
  have hname_nl : '\n' ∉ c.name := (scalarOk_not_mem _ hy2.1.1.1.1).1
  have htabE : (itemsToMarkdownTable c).isEmpty = true := by rw [htab0]; rfl
  have hread : fsRead (dictSet fs.files (getFilePath dataDir c.name)
      (saveContent c)) (getFilePath dataDir c.name) = some (saveContent c) :=
    dlookup_dictSet_self _ _ _
  have hstarts : startsW "---\n".data (saveContent c) = true := by
    rw [saveContent_decomp]
    exact startsW_prepend _ _
  have hdrop : (saveContent c).drop 4 =
      joinWith "\n".data (yamlDumpLines c) ++ (delimPat ++ mdPost c) := by
    rw [saveContent_decomp]
    exact drop4_header _
  have hfind : findSplit delimPat ((saveContent c).drop 4) =
      some (joinWith "\n".data (yamlDumpLines c), mdPost c) := by
    rw [hdrop]
    rw [show joinWith "\n".data (yamlDumpLines c) ++ (delimPat ++ mdPost c) =
      joinWith "\n".data (yamlDumpLines c) ++ delimPat ++ mdPost c from by simp]
    exact findSplit_first delimPat (by decide) _ _
      (no_early_delim (yamlDumpLines c) (mdPost c)
        (fun l hl => ⟨yamlLines_noNL c hy l hl, yamlLines_noDashDash c l hl⟩))
  have hparse := yamlParse_yamlDump c hy
  have hscan := mdScan_empty c htabE hname_nl
  refine ⟨htab0, ?_⟩
  unfold loadCollection loadCore
  rw [hread]
  simp only [hstarts, Bool.not_true, Bool.false_eq_true, if_false, hfind,
    hparse, hscan, htab0]
  rw [show tableRowDatas [] c.fields = ([] : List (List (Str × Value))) from rfl]
  simp [assignIds]

/-- C9 witness: the concrete fieldless collection `N` with one item. -/
theorem C9_empty_fields_drop_items_witness :
    (fs0.dirs.contains ddir = true ∧ yamlOk cC9 = true ∧ cC9.fields = [] ∧
     cC9.items ≠ [] ∧ saveCollection fs0 ddir cC9 = .ok fsC9saved) ∧
    (itemsToMarkdownTable cC9 = [] ∧
     loadCollection fsC9saved ddir cC9.name 0 =
       .ok (⟨cC9.name, cC9.type, cC9.fields, [], cC9.created_at,
             cC9.updated_at⟩, 0)) :=
  ⟨⟨by decide, by decide, by decide, by decide, by decide⟩,
   C9_empty_fields_drop_items fs0 ddir cC9 fsC9saved 0 (by decide) (by decide)
     (by decide) (by decide) (by decide)⟩

/-- C10: constructing the store keeps the files untouched and creates the
data directory with all its missing ancestors (a no-op when they already
exist), after which saving any collection and listing collections both
succeed. -/
theorem C10_init_creates_data_dir (fs : FS) (dataDir : Str) (c : Collection) :
    (initStorage fs dataDir).files = fs.files ∧
    (∀ d ∈ fs.dirs, d ∈ (initStorage fs dataDir).dirs) ∧
    dataDir ∈ (initStorage fs dataDir).dirs ∧
    ((∀ a ∈ ancestorsOf dataDir, fs.dirs.contains a = true) →
      initStorage fs dataDir = fs) ∧
    (∃ fs2, saveCollection (initStorage fs dataDir) dataDir c = .ok fs2) ∧
    (∃ ns, listCollections (initStorage fs dataDir) dataDir = .ok ns) := by
  have hmem : dataDir ∈ (initStorage fs dataDir).dirs :=
    addAll_mem (ancestorsOf dataDir) fs.dirs dataDir (ancestorsOf_self dataDir)
  have hcont : (initStorage fs dataDir).dirs.contains dataDir = true :=
    (strList_contains_iff _ _).mpr hmem
  refine ⟨rfl, ?_, hmem, ?_, ?_, ?_⟩
  · intro d hd
    exact addAll_sub (ancestorsOf dataDir) fs.dirs d hd
  · intro hall
    unfold initStorage
    rw [addAll_noop _ _ hall]
  · exact ⟨_, by unfold saveCollection; rw [if_pos hcont]⟩
  · exact ⟨_, by unfold listCollections; rw [if_pos hcont]⟩

/-- C10 witness: a nested data directory created from an empty filesystem;
saving and listing succeed on the freshly constructed store. -/
theorem C10_init_creates_data_dir_witness :
    "nested/data".data ∈ (initStorage ⟨[], []⟩ "nested/data".data).dirs ∧
    (∃ fs2, saveCollection (initStorage ⟨[], []⟩ "nested/data".data)
        "nested/data".data cW = .ok fs2) ∧
    (∃ ns, listCollections (initStorage ⟨[], []⟩ "nested/data".data)
        "nested/data".data = .ok ns) :=
  ⟨(C10_init_creates_data_dir ⟨[], []⟩ "nested/data".data cW).2.2.1,
   (C10_init_creates_data_dir ⟨[], []⟩ "nested/data".data cW).2.2.2.2.1,
   (C10_init_creates_data_dir ⟨[], []⟩ "nested/data".data cW).2.2.2.2.2⟩

end Pylisticles
